import Mathlib

/-!
Verification of the RB-BFS-MazeEngine core: the cell/grid data model
(maze_core.py), the four pathfinder strategies (pathfinders.py) and the
iterative recursive-backtracking maze generator (generators.py), embedded
shallowly in Lean.  Machine integers are modelled as Int/Nat (Python ints are
unbounded), Python lists as Lean lists, the mutable visited set as a Finset,
and the global random module as an explicit stream of naturals threaded
through the generator.
-/

namespace MazeEngine

/-- CellType enumeration from maze_core.py (WALL, EMPTY, START, END, PATH). -/
inductive CellType where
  | WALL
  | EMPTY
  | START
  | END
  | PATH
deriving DecidableEq, Repr

/-- Position from maze_core.py: a pair of integer coordinates (x column, y row),
compared by value. -/
structure Position where
  x : Int
  y : Int
deriving DecidableEq, Repr

instance : Inhabited Position := ⟨⟨0, 0⟩⟩

/-- Cell from maze_core.py: coordinates plus a cell type (the unused
visited flag is omitted; nothing in the verified code reads it). -/
structure Cell where
  x : Int
  y : Int
  cell_type : CellType
deriving DecidableEq, Repr

/-- Cell.is_wall from maze_core.py. -/
def Cell.is_wall (c : Cell) : Bool :=
  c.cell_type = CellType.WALL

/-- Cell.is_passable from maze_core.py: true for EMPTY, START, END, PATH. -/
def Cell.is_passable (c : Cell) : Bool :=
  c.cell_type = CellType.EMPTY ∨ c.cell_type = CellType.START ∨
    c.cell_type = CellType.END ∨ c.cell_type = CellType.PATH

/-- A grid is a list of rows of cells, indexed grid[y][x]. -/
abbrev Grid := List (List Cell)

/-- Python len(grid). -/
def gridHeight (g : Grid) : Nat := g.length

/-- Python len(grid[0]) (the width every pathfinder and the generator use). -/
def gridWidth (g : Grid) : Nat := (g.headD []).length

/-- Bounds check 0 <= x < width and 0 <= y < height used by all searches. -/
def inBoundsB (W H : Nat) (p : Position) : Bool :=
  decide (0 ≤ p.x ∧ p.x < (W : Int) ∧ 0 ≤ p.y ∧ p.y < (H : Int))

/-- Cell lookup grid[y][x]; None when the index does not exist (Python would
raise there; all theorems about lookups carry bounds or shape hypotheses that
keep the embedding inside Python's non-raising behaviour). -/
def cellAt (g : Grid) (p : Position) : Option Cell :=
  (g[p.y.toNat]?).bind (fun row => row[p.x.toNat]?)

/-- Passability test grid[y][x].is_passable(). -/
def passableB (g : Grid) (p : Position) : Bool :=
  match cellAt g p with
  | some c => c.is_passable
  | none => false

/-- The movement direction list [(1,0),(0,1),(-1,0),(0,-1)] shared by every
pathfinder. -/
def directions : List (Int × Int) := [(1, 0), (0, 1), (-1, 0), (0, -1)]

/-- The four axis neighbours of a position, in direction-list order. -/
def neighborList (p : Position) : List Position :=
  directions.map (fun d => ⟨p.x + d.1, p.y + d.2⟩)

/-- Manhattan-distance-1 adjacency. -/
def adjacentB (p q : Position) : Bool :=
  decide ((p.x - q.x).natAbs + (p.y - q.y).natAbs = 1)

/-- In-bounds-and-passable: the combined step admissibility test every search
applies to a candidate neighbour. -/
def okB (W H : Nat) (pass : Position → Bool) (q : Position) : Bool :=
  inBoundsB W H q && pass q

/-- Rectangularity: every row has the first row's length.  Under this
hypothesis no Python indexing in the pathfinders can raise, and the embedding
coincides with the source behaviour. -/
def Rect (g : Grid) : Prop :=
  ∀ row ∈ g, row.length = gridWidth g

/-- Finite set of in-bounds positions, used as the termination universe of the
search loops. -/
def boundedPositions (W H : Nat) : Finset Position :=
  (Finset.Icc (0 : Int) ((W : Int) - 1) ×ˢ Finset.Icc (0 : Int) ((H : Int) - 1)).image
    (fun q => ⟨q.1, q.2⟩)

/-- Valid search paths, exactly as the source constructs them: a path starts
with start_pos (which is never bounds- or passability-checked), and each
extension appends an adjacent position that passes the in-bounds/passable
test. -/
inductive PathTo (ok : Position → Bool) (startP : Position) : Position → List Position → Prop where
  | base : PathTo ok startP startP [startP]
  | step {p q : Position} {l : List Position} :
      PathTo ok startP p l → adjacentB p q = true → ok q = true →
      PathTo ok startP q (l ++ [q])

/-- The BFS frontier loop shared verbatim (modulo the passability closure) by
BFSPathfinder.find_path and the final search of DeadEndFillerPathfinder:
a FIFO queue of (position, accumulated path) pairs and a visited set; the four
neighbours of the dequeued position are bounds-, visited- and
passability-filtered, enqueued in direction order and marked visited.  The
incremental visited.add of the source is equivalent to the batch union because
the four neighbour positions are pairwise distinct. -/
def bfsLoop (W H : Nat) (pass : Position → Bool) (endP : Position) :
    List (Position × List Position) → Finset Position → Option (List Position)
  | [], _ => none
  | (cur, path) :: rest, visited =>
    if cur = endP then some path
    else
      bfsLoop W H pass endP
        (rest ++ ((neighborList cur).filter
          (fun q => inBoundsB W H q && decide (q ∉ visited) && pass q)).map
            (fun q => (q, path ++ [q])))
        (visited ∪ ((neighborList cur).filter
          (fun q => inBoundsB W H q && decide (q ∉ visited) && pass q)).toFinset)
termination_by queue visited => 2 * ((boundedPositions W H) \ visited).card + queue.length
decreasing_by
  have hn4 : (neighborList cur).Nodup := by
    simp [neighborList, directions, Position.mk.injEq]
    try omega
  have hnodup : ((neighborList cur).filter
      (fun q => inBoundsB W H q && decide (q ∉ visited) && pass q)).Nodup :=
    hn4.filter _
  have hsub : ((neighborList cur).filter
      (fun q => inBoundsB W H q && decide (q ∉ visited) && pass q)).toFinset ⊆
      boundedPositions W H \ visited := by
    intro q hq
    rw [List.mem_toFinset, List.mem_filter] at hq
    obtain ⟨-, hcond⟩ := hq
    simp only [Bool.and_eq_true, decide_eq_true_eq] at hcond
    obtain ⟨⟨hb, hv⟩, -⟩ := hcond
    simp only [inBoundsB, decide_eq_true_eq] at hb
    rw [Finset.mem_sdiff]
    refine ⟨?_, hv⟩
    simp only [boundedPositions, Finset.mem_image, Finset.mem_product, Finset.mem_Icc,
      Prod.exists]
    exact ⟨q.x, q.y, ⟨⟨by omega, by omega⟩, ⟨by omega, by omega⟩⟩, rfl⟩
  have hsplit : boundedPositions W H \ (visited ∪ ((neighborList cur).filter
      (fun q => inBoundsB W H q && decide (q ∉ visited) && pass q)).toFinset) =
      (boundedPositions W H \ visited) \ ((neighborList cur).filter
      (fun q => inBoundsB W H q && decide (q ∉ visited) && pass q)).toFinset := by
    ext z
    simp only [Finset.mem_sdiff, Finset.mem_union]
    tauto
  have hcardfin : (((neighborList cur).filter
      (fun q => inBoundsB W H q && decide (q ∉ visited) && pass q)).toFinset).card =
      ((neighborList cur).filter
      (fun q => inBoundsB W H q && decide (q ∉ visited) && pass q)).length :=
    List.toFinset_card_of_nodup hnodup
  have hcard := Finset.card_sdiff hsub
  have hle : (((neighborList cur).filter
      (fun q => inBoundsB W H q && decide (q ∉ visited) && pass q)).toFinset).card ≤
      (boundedPositions W H \ visited).card := Finset.card_le_card hsub
  simp only [hsplit, hcard, hcardfin, List.length_append, List.length_map, List.length_cons]
  omega

/-- Priority-queue entry of AStarPathfinder / DijkstraPathfinder:
(f_score, g_score, counter, position, path).  Dijkstra's 4-tuples
(distance, counter, position, path) are the h ≡ 0 instance: every entry then
has f = g = distance, so comparing (f, g, counter) lexicographically picks the
same minimum as comparing (distance, counter). -/
structure AEntry where
  f : Nat
  g : Nat
  counter : Nat
  pos : Position
  path : List Position
deriving DecidableEq, Repr

/-- Lexicographic tuple comparison on (f, g, counter), the order heapq uses on
the pushed tuples; the counter is unique per push, so the position and path
components are never compared. -/
def AEntry.keyLe (a b : AEntry) : Bool :=
  decide (a.f < b.f ∨ (a.f = b.f ∧ (a.g < b.g ∨ (a.g = b.g ∧ a.counter ≤ b.counter))))

/-- Least entry of a nonempty collection under the tuple order (ties cannot
arise in a run, the counters being pairwise distinct). -/
def minEntry (x : AEntry) : List AEntry → AEntry
  | [] => x
  | y :: ys => if x.keyLe (minEntry y ys) then x else minEntry y ys

/-- Extensional model of heapq: the heap is the multiset of pushed entries and
heappop removes a least entry under the tuple order. -/
def popMin (l : List AEntry) : Option (AEntry × List AEntry) :=
  match l with
  | [] => none
  | x :: xs => some (minEntry x xs, l.erase (minEntry x xs))

/-- Mutable state the neighbour-exploration loop of A*/Dijkstra threads:
the heap, the g_scores (resp. distances) dictionary and the tiebreak
counter. -/
structure AState where
  open_set : List AEntry
  g_scores : Position → Option Nat
  counter : Nat

/-- Positions currently carrying an entry in a heap. -/
def heapPosS (l : List AEntry) : Finset Position :=
  (l.map AEntry.pos).toFinset

/-- Test "next_pos not in g_scores or tentative_g_score < g_scores[next_pos]". -/
def gsAllows (o : Option Nat) (t : Nat) : Bool :=
  match o with
  | none => true
  | some old => decide (t < old)

/-- Body of the for-dx,dy loop of AStarPathfinder/DijkstraPathfinder.find_path:
bounds/visited/passability check, then push (and record the new g score) when
the neighbour has no recorded score or a strictly cheaper tentative one. -/
def aPush (W H : Nat) (pass : Position → Bool) (h : Position → Nat)
    (visited : Finset Position) (gsc : Nat) (path : List Position)
    (st : AState) (next_pos : Position) : AState :=
  if inBoundsB W H next_pos && decide (next_pos ∉ visited) && pass next_pos &&
      gsAllows (st.g_scores next_pos) (gsc + 1) then
    { open_set := { f := gsc + 1 + h next_pos, g := gsc + 1, counter := st.counter + 1,
                    pos := next_pos, path := path ++ [next_pos] } :: st.open_set,
      g_scores := fun p => if p = next_pos then some (gsc + 1) else st.g_scores p,
      counter := st.counter + 1 }
  else st

/-- Main loop shared by AStarPathfinder and DijkstraPathfinder: pop the least
entry, skip it if its position was already finalized, otherwise finalize it,
return its path when it is the end position, and explore its four neighbours
in direction order. -/
def bestFirstLoop (W H : Nat) (pass : Position → Bool) (h : Position → Nat)
    (endP : Position) (heap : List AEntry) (visited : Finset Position)
    (gs : Position → Option Nat) (counter : Nat) : Option (List Position) :=
  match hpop : popMin heap with
  | none => none
  | some (e, rest) =>
    if e.pos ∈ visited then bestFirstLoop W H pass h endP rest visited gs counter
    else
      if e.pos = endP then some e.path
      else
        bestFirstLoop W H pass h endP
          ((neighborList e.pos).foldl
            (aPush W H pass h (insert e.pos visited) e.g e.path)
            ⟨rest, gs, counter⟩).open_set
          (insert e.pos visited)
          ((neighborList e.pos).foldl
            (aPush W H pass h (insert e.pos visited) e.g e.path)
            ⟨rest, gs, counter⟩).g_scores
          ((neighborList e.pos).foldl
            (aPush W H pass h (insert e.pos visited) e.g e.path)
            ⟨rest, gs, counter⟩).counter
termination_by 4 * ((boundedPositions W H ∪ heapPosS heap) \ visited).card + heap.length
decreasing_by
  all_goals
    have hment : ∀ (xs : List AEntry) (x : AEntry), minEntry x xs ∈ x :: xs := by
      intro xs
      induction xs with
      | nil => intro x; simp [minEntry]
      | cons y ys ih =>
        intro x
        by_cases hk : x.keyLe (minEntry y ys)
        · simp [minEntry, hk]
        · simp only [minEntry, hk, if_false]
          exact List.mem_cons_of_mem _ (ih y)
  all_goals
    obtain ⟨hein, hrest⟩ : e ∈ heap ∧ rest = heap.erase e := by
      cases heap with
      | nil => simp [popMin] at hpop
      | cons x xs =>
        simp only [popMin, Option.some.injEq, Prod.mk.injEq] at hpop
        obtain ⟨h1, h2⟩ := hpop
        exact ⟨h1 ▸ hment xs x, by rw [← h2, h1]⟩
  all_goals
    have hlen : rest.length = heap.length - 1 := by
      rw [hrest]
      exact List.length_erase_of_mem hein
  all_goals
    have hpos0 : 0 < heap.length := List.length_pos_of_mem hein
  all_goals
    have hsubl : ∀ x ∈ rest, x ∈ heap := by
      intro x hx
      rw [hrest] at hx
      exact List.erase_subset _ _ hx
  -- skip branch: the heap shrinks and the visited set is unchanged
  case _ =>
    have hmono : (boundedPositions W H ∪ heapPosS rest) \ visited ⊆
        (boundedPositions W H ∪ heapPosS heap) \ visited := by
      apply Finset.sdiff_subset_sdiff _ (le_refl _)
      apply Finset.union_subset_union (le_refl _)
      intro p hp
      simp only [heapPosS, List.mem_toFinset, List.mem_map] at hp ⊢
      obtain ⟨x, hx, rfl⟩ := hp
      exact ⟨x, hsubl x hx, rfl⟩
    have hcard := Finset.card_le_card hmono
    omega
  -- explore branch: the popped position becomes visited
  case _ he _ =>
    have hfold : ∀ (ds : List Position) (st : AState),
        ((ds.foldl (aPush W H pass h (insert e.pos visited) e.g e.path) st).open_set.length ≤
          st.open_set.length + ds.length) ∧
        ∀ p, p ∈ heapPosS (ds.foldl (aPush W H pass h (insert e.pos visited) e.g e.path)
            st).open_set →
          p ∈ heapPosS st.open_set ∨ p ∈ boundedPositions W H := by
      intro ds
      induction ds with
      | nil => intro st; exact ⟨by simp, fun p hp => Or.inl hp⟩
      | cons d ds ih =>
        intro st
        have hstep : ((aPush W H pass h (insert e.pos visited) e.g e.path st d).open_set.length ≤
              st.open_set.length + 1) ∧
            ∀ p, p ∈ heapPosS (aPush W H pass h (insert e.pos visited) e.g e.path st d).open_set →
              p ∈ heapPosS st.open_set ∨ p ∈ boundedPositions W H := by
          simp only [aPush]
          split
          next hcond =>
            have hparts := hcond
            simp only [Bool.and_eq_true] at hparts
            obtain ⟨⟨⟨hb, hv⟩, hpd⟩, hg⟩ := hparts
            refine ⟨by simp, ?_⟩
            intro p hp
            simp only [heapPosS, List.map_cons, List.mem_toFinset, List.mem_cons] at hp
            rcases hp with hp | hp
            · right
              simp only [inBoundsB, decide_eq_true_eq] at hb
              simp only [boundedPositions, Finset.mem_image, Finset.mem_product,
                Finset.mem_Icc, Prod.exists]
              exact hp ▸ ⟨d.x, d.y, ⟨⟨by omega, by omega⟩, ⟨by omega, by omega⟩⟩, rfl⟩
            · left
              simpa [heapPosS] using hp
          next =>
            exact ⟨by omega, fun p hp => Or.inl hp⟩
        rw [List.foldl_cons]
        obtain ⟨ih1, ih2⟩ := ih (aPush W H pass h (insert e.pos visited) e.g e.path st d)
        refine ⟨by simp only [List.length_cons]; omega, ?_⟩
        intro p hp
        rcases ih2 p hp with hp2 | hp2
        · exact hstep.2 p hp2
        · exact Or.inr hp2
    obtain ⟨hflen, hfpos⟩ := hfold (neighborList e.pos) ⟨rest, gs, counter⟩
    have hdirs : (neighborList e.pos).length = 4 := by simp [neighborList, directions]
    have hsubset : (boundedPositions W H ∪ heapPosS ((neighborList e.pos).foldl
          (aPush W H pass h (insert e.pos visited) e.g e.path)
          ⟨rest, gs, counter⟩).open_set) \ insert e.pos visited ⊆
        (((boundedPositions W H ∪ heapPosS heap) \ visited).erase e.pos) := by
      intro z hz
      rw [Finset.mem_sdiff, Finset.mem_insert, not_or] at hz
      obtain ⟨hzl, hzne, hznv⟩ := hz
      rw [Finset.mem_erase, Finset.mem_sdiff]
      refine ⟨hzne, ?_, hznv⟩
      rcases Finset.mem_union.mp hzl with hzb | hzp
      · exact Finset.mem_union_left _ hzb
      · rcases hfpos z hzp with hzr | hzb
        · apply Finset.mem_union_right
          simp only [heapPosS, List.mem_toFinset, List.mem_map] at hzr ⊢
          obtain ⟨x, hx, rfl⟩ := hzr
          exact ⟨x, hsubl x hx, rfl⟩
        · exact Finset.mem_union_left _ hzb
    have hemem : e.pos ∈ (boundedPositions W H ∪ heapPosS heap) \ visited := by
      rw [Finset.mem_sdiff]
      refine ⟨Finset.mem_union_right _ ?_, he⟩
      simp only [heapPosS, List.mem_toFinset, List.mem_map]
      exact ⟨e, hein, rfl⟩
    have hcard1 := Finset.card_le_card hsubset
    have hcard2 := Finset.card_erase_of_mem hemem
    have hpos : 0 < ((boundedPositions W H ∪ heapPosS heap) \ visited).card :=
      Finset.card_pos.mpr ⟨e.pos, hemem⟩
    dsimp only at hflen hfpos ⊢
    omega

/-- BFSPathfinder.find_path from pathfinders.py. -/
def BFSPathfinder.find_path (g : Grid) (start_pos end_pos : Position) :
    Option (List Position) :=
  match g with
  | [] => none
  | row0 :: _ =>
    if row0.isEmpty then none
    else bfsLoop (gridWidth g) (gridHeight g) (passableB g) end_pos
      [(start_pos, [start_pos])] {start_pos}

/-- AStarPathfinder._manhattan_distance from pathfinders.py. -/
def manhattan_distance (pos1 pos2 : Position) : Nat :=
  (pos1.x - pos2.x).natAbs + (pos1.y - pos2.y).natAbs

/-- AStarPathfinder.find_path from pathfinders.py: the initial heap holds
(0, 0, 0, start_pos, [start_pos]) and g_scores starts as the singleton map
sending start_pos to 0. -/
def AStarPathfinder.find_path (g : Grid) (start_pos end_pos : Position) :
    Option (List Position) :=
  match g with
  | [] => none
  | row0 :: _ =>
    if row0.isEmpty then none
    else
      bestFirstLoop (gridWidth g) (gridHeight g) (passableB g)
        (fun p => manhattan_distance p end_pos) end_pos
        [⟨0, 0, 0, start_pos, [start_pos]⟩] ∅
        (fun p => if p = start_pos then some 0 else none) 0

/-- DijkstraPathfinder.find_path from pathfinders.py: the same loop with the
zero heuristic; see the AEntry comment for why the 4-tuple comparison of the
source coincides with the 5-tuple comparison at h ≡ 0. -/
def DijkstraPathfinder.find_path (g : Grid) (start_pos end_pos : Position) :
    Option (List Position) :=
  match g with
  | [] => none
  | row0 :: _ =>
    if row0.isEmpty then none
    else
      bestFirstLoop (gridWidth g) (gridHeight g) (passableB g)
        (fun _ => 0) end_pos
        [⟨0, 0, 0, start_pos, [start_pos]⟩] ∅
        (fun p => if p = start_pos then some 0 else none) 0

/-! DeadEndFillerPathfinder: the working copy of the grid's cell kinds, the
dead-end fill fixpoint, and the final BFS over the filled copy. -/

/-- Working grid: just the cell kinds, as built by the list comprehension
working_grid = [[cell.cell_type for cell in row] for row in grid]. -/
abbrev WGrid := List (List CellType)

/-- The working copy of a grid's cell kinds. -/
def workingCopy (g : Grid) : WGrid :=
  g.map (fun row => row.map Cell.cell_type)

/-- Kind lookup working_grid[y][x]. -/
def wKindAt (w : WGrid) (x y : Nat) : Option CellType :=
  (w[y]?).bind (fun row => row[x]?)

/-- Membership in [EMPTY, START, END, PATH], the passability test the filler
applies to the working grid. -/
def wPassableKind (k : CellType) : Bool :=
  k = CellType.EMPTY ∨ k = CellType.START ∨ k = CellType.END ∨ k = CellType.PATH

/-- Passability of a position in the working grid. -/
def wPassable (w : WGrid) (p : Position) : Bool :=
  match wKindAt w p.x.toNat p.y.toNat with
  | some k => wPassableKind k
  | none => false

/-- Write working_grid[y][x] = k. -/
def wSet (w : WGrid) (x y : Nat) (k : CellType) : WGrid :=
  match w[y]? with
  | some row => w.set y (row.set x k)
  | none => w

/-- Count of passable 4-neighbours of (x, y) in the working grid. -/
def countPassableNeighbors (W H : Nat) (w : WGrid) (x y : Nat) : Nat :=
  (directions.filter (fun d =>
    inBoundsB W H ⟨(x : Int) + d.1, (y : Int) + d.2⟩ &&
      wPassable w ⟨(x : Int) + d.1, (y : Int) + d.2⟩)).length

/-- Scan order of the fill pass: y in range(height) outer, x in range(width)
inner, visiting (x, y) pairs. -/
def coordList (W H : Nat) : List (Nat × Nat) :=
  (List.range H).flatMap (fun y => (List.range W).map (fun x => (x, y)))

/-- Body of the scan: skip non-EMPTY/PATH cells and the terminals; convert a
cell with at most one passable neighbour to WALL and record the change.  The
none branch (missing cell) cannot arise on rectangular grids; the source
would raise there. -/
def fillCellStep (W H : Nat) (startP endP : Position) (wb : WGrid × Bool)
    (c : Nat × Nat) : WGrid × Bool :=
  match wKindAt wb.1 c.1 c.2 with
  | none => wb
  | some k =>
    if ¬(k = CellType.EMPTY ∨ k = CellType.PATH) ∨
        (⟨(c.1 : Int), (c.2 : Int)⟩ : Position) = startP ∨
        (⟨(c.1 : Int), (c.2 : Int)⟩ : Position) = endP then wb
    else if countPassableNeighbors W H wb.1 c.1 c.2 ≤ 1 then
      (wSet wb.1 c.1 c.2 CellType.WALL, true)
    else wb

/-- One full raster scan of the fill loop, with in-place updates visible to
later cells of the same scan, starting from changed = False. -/
def fillPass (W H : Nat) (startP endP : Position) (w : WGrid) : WGrid × Bool :=
  (coordList W H).foldl (fillCellStep W H startP endP) (w, false)

/-- Number of EMPTY or PATH cells, the quantity each effective fill pass
strictly decreases. -/
def wCount (w : WGrid) : Nat :=
  (w.map (fun row => row.countP (fun k => k = CellType.EMPTY ∨ k = CellType.PATH))).sum

/-- The while-changed loop of the filler: repeat full scans until one makes no
change, and return the working grid of the final scan. -/
def fillLoop (W H : Nat) (startP endP : Position) (w : WGrid) : WGrid :=
  if (fillPass W H startP endP w).2 then fillLoop W H startP endP (fillPass W H startP endP w).1
  else (fillPass W H startP endP w).1
termination_by wCount w
decreasing_by
  have hone : ∀ (row : List CellType) (x : Nat) (k : CellType), row[x]? = some k →
      (k = CellType.EMPTY ∨ k = CellType.PATH) →
      (row.set x CellType.WALL).countP (fun k => k = CellType.EMPTY ∨ k = CellType.PATH) <
        row.countP (fun k => k = CellType.EMPTY ∨ k = CellType.PATH) := by
    intro row
    induction row with
    | nil => intro x k hk; simp at hk
    | cons a as ih =>
      intro x k hk hkp
      cases x with
      | zero =>
        simp only [List.getElem?_cons_zero, Option.some.injEq] at hk
        obtain rfl := hk
        rcases hkp with rfl | rfl <;>
          simp only [List.set_cons_zero, List.countP_cons] <;> simp <;> try omega
      | succ n =>
        simp only [List.getElem?_cons_succ] at hk
        simp only [List.set_cons_succ, List.countP_cons]
        have := ih n k hk hkp
        omega
  have hset : ∀ (w : WGrid) (x y : Nat) (k : CellType), wKindAt w x y = some k →
      (k = CellType.EMPTY ∨ k = CellType.PATH) →
      wCount (wSet w x y CellType.WALL) < wCount w := by
    intro w
    induction w with
    | nil => intro x y k hk; simp [wKindAt] at hk
    | cons r rs ih =>
      intro x y k hk hkp
      cases y with
      | zero =>
        simp only [wKindAt, List.getElem?_cons_zero] at hk
        simp only [wSet, List.getElem?_cons_zero, List.set_cons_zero, wCount, List.map_cons,
          List.sum_cons]
        have := hone r x k hk hkp
        omega
      | succ n =>
        simp only [wKindAt, List.getElem?_cons_succ] at hk
        have hrec := ih x n k hk hkp
        simp only [wSet, List.getElem?_cons_succ, wCount, List.map_cons, List.sum_cons] at hrec ⊢
        cases hry : rs[n]? with
        | none => simp only [hry] at hrec ⊢; omega
        | some row =>
          simp only [hry, List.set_cons_succ, List.map_cons, List.sum_cons] at hrec ⊢
          omega
  have hstep : ∀ (wb : WGrid × Bool) (c : Nat × Nat),
      wCount (fillCellStep W H startP endP wb c).1 ≤ wCount wb.1 ∧
      ((fillCellStep W H startP endP wb c).2 = true →
        wb.2 = true ∨ wCount (fillCellStep W H startP endP wb c).1 < wCount wb.1) := by
    intro wb c
    simp only [fillCellStep]
    cases hk : wKindAt wb.1 c.1 c.2 with
    | none => exact ⟨le_refl _, fun hb => Or.inl hb⟩
    | some k =>
      by_cases hskip : ¬(k = CellType.EMPTY ∨ k = CellType.PATH) ∨
          (⟨(c.1 : Int), (c.2 : Int)⟩ : Position) = startP ∨
          (⟨(c.1 : Int), (c.2 : Int)⟩ : Position) = endP
      · simp only [hskip, if_true]
        exact ⟨le_refl _, fun hb => Or.inl hb⟩
      · simp only [hskip, if_false]
        have hkp : k = CellType.EMPTY ∨ k = CellType.PATH := by
          by_contra hc
          exact hskip (Or.inl hc)
        by_cases hcnt : countPassableNeighbors W H wb.1 c.1 c.2 ≤ 1
        · simp only [hcnt, if_true]
          have := hset wb.1 c.1 c.2 k hk hkp
          exact ⟨le_of_lt this, fun _ => Or.inr this⟩
        · simp only [hcnt, if_false]
          exact ⟨le_refl _, fun hb => Or.inl hb⟩
  have hfold : ∀ (cs : List (Nat × Nat)) (wb : WGrid × Bool),
      wCount (cs.foldl (fillCellStep W H startP endP) wb).1 ≤ wCount wb.1 ∧
      ((cs.foldl (fillCellStep W H startP endP) wb).2 = true →
        wb.2 = true ∨ wCount (cs.foldl (fillCellStep W H startP endP) wb).1 < wCount wb.1) := by
    intro cs
    induction cs with
    | nil => intro wb; exact ⟨le_refl _, fun hb => Or.inl hb⟩
    | cons c cs ih =>
      intro wb
      rw [List.foldl_cons]
      obtain ⟨ih1, ih2⟩ := ih (fillCellStep W H startP endP wb c)
      obtain ⟨hs1, hs2⟩ := hstep wb c
      refine ⟨le_trans ih1 hs1, ?_⟩
      intro hb
      rcases ih2 hb with hb2 | hlt
      · rcases hs2 hb2 with hb3 | hlt
        · exact Or.inl hb3
        · exact Or.inr (lt_of_le_of_lt ih1 hlt)
      · exact Or.inr (lt_of_lt_of_le hlt hs1)
  rename_i hch
  obtain ⟨h1, h2⟩ := hfold (coordList W H) (w, false)
  rcases h2 hch with hb | hlt
  · simp at hb
  · exact hlt

/-- DeadEndFillerPathfinder.find_path from pathfinders.py: fill dead ends on
the working copy until a fixpoint, then run the identical BFS block over the
filled copy's passability. -/
def DeadEndFillerPathfinder.find_path (g : Grid) (start_pos end_pos : Position) :
    Option (List Position) :=
  match g with
  | [] => none
  | row0 :: _ =>
    if row0.isEmpty then none
    else
      bfsLoop (gridWidth g) (gridHeight g)
        (wPassable (fillLoop (gridWidth g) (gridHeight g) start_pos end_pos (workingCopy g)))
        end_pos [(start_pos, [start_pos])] {start_pos}

/-! Generator (generators.py, IterativeRecursiveBacktrackGenerator).  The
global random module is modelled as an explicit stream of naturals with a
cursor: random.choice(l) consumes one stream value n and picks l[n % len(l)],
and random.choice([True, False]) picks True exactly when the consumed value is
even.  A universally quantified stream covers every seed; a seeded stream is a
fixed function of the seed, of which only determinism is ever used. -/

/-- Explicit pseudo-random state: an infinite stream of naturals plus the
cursor of the next unconsumed value. -/
structure RNG where
  stream : Nat → Nat
  idx : Nat

/-- Consume one value, reduced modulo the number of alternatives. -/
def RNG.next (r : RNG) (k : Nat) : Nat × RNG :=
  (r.stream r.idx % k, ⟨r.stream, r.idx + 1⟩)

/-- Stream of the global random module after random.seed(seed); only its
determinism (equal seeds give equal streams) is relied upon by any theorem. -/
def seededRNG (seed : Nat) : RNG :=
  ⟨fun n => seed + n, 0⟩

/-- Fresh height x width grid of WALL cells. -/
def initGrid (W H : Nat) : Grid :=
  (List.range H).map (fun y => (List.range W).map
    (fun x => ⟨Int.ofNat x, Int.ofNat y, CellType.WALL⟩))

/-- Assignment grid[p.y][p.x] = Cell(p.x, p.y, k); out-of-range writes cannot
arise under the in-bounds hypotheses of the generator theorems (the source
would raise there). -/
def setCell (g : Grid) (p : Position) (k : CellType) : Grid :=
  match g[p.y.toNat]? with
  | some row => g.set p.y.toNat (row.set p.x.toNat ⟨p.x, p.y, k⟩)
  | none => g

/-- Guarded carve: mark the cell EMPTY unless its kind is START or END. -/
def carveCell (g : Grid) (p : Position) : Grid :=
  match cellAt g p with
  | some c =>
    if c.cell_type = CellType.START ∨ c.cell_type = CellType.END then g
    else setCell g p CellType.EMPTY
  | none => g

/-- Stride-2 direction vectors [(2,0),(0,2),(-2,0),(0,-2)]. -/
def strideDirections : List (Int × Int) := [(2, 0), (0, 2), (-2, 0), (0, -2)]

/-- Stride-2 neighbours of a position, in direction order. -/
def strideNeighborList (pos : Position) : List Position :=
  strideDirections.map (fun d => Position.mk (pos.x + d.1) (pos.y + d.2))

/-- IterativeRecursiveBacktrackGenerator._get_unvisited_neighbors: in-bounds,
unvisited stride-2 neighbours in direction order. -/
def get_unvisited_neighbors (pos : Position) (W H : Nat) (visited : Finset Position) :
    List Position :=
  (strideNeighborList pos).filter
    (fun q => inBoundsB W H q && decide (q ∉ visited))

/-- Main carving loop of generate: peek the stack top, pick a random unvisited
stride-2 neighbour if any (carving the neighbour and then the wall halfway,
both guarded against terminals), else backtrack.  The halfway point
(current + next) // 2 is exact (the sum is even), so Int division matches
Python floor division. -/
def genLoop (W H : Nat) (g : Grid) (stack : List Position) (visited : Finset Position)
    (r : RNG) : Grid × RNG :=
  match stack with
  | [] => (g, r)
  | cur :: stackRest =>
    if get_unvisited_neighbors cur W H visited = [] then
      genLoop W H g stackRest visited r
    else
      genLoop W H
        (carveCell
          (carveCell g ((get_unvisited_neighbors cur W H visited).getD
            ((r.next (get_unvisited_neighbors cur W H visited).length).1) ⟨0, 0⟩))
          ⟨(cur.x + ((get_unvisited_neighbors cur W H visited).getD
              ((r.next (get_unvisited_neighbors cur W H visited).length).1) ⟨0, 0⟩).x) / 2,
            (cur.y + ((get_unvisited_neighbors cur W H visited).getD
              ((r.next (get_unvisited_neighbors cur W H visited).length).1) ⟨0, 0⟩).y) / 2⟩)
        (((get_unvisited_neighbors cur W H visited).getD
            ((r.next (get_unvisited_neighbors cur W H visited).length).1) ⟨0, 0⟩) ::
          cur :: stackRest)
        (insert ((get_unvisited_neighbors cur W H visited).getD
            ((r.next (get_unvisited_neighbors cur W H visited).length).1) ⟨0, 0⟩) visited)
        (r.next (get_unvisited_neighbors cur W H visited).length).2
termination_by 2 * ((boundedPositions W H) \ visited).card + stack.length
decreasing_by
  · simp only [List.length_cons]
    omega
  · rename_i hne
    set nxt := (get_unvisited_neighbors cur W H visited).getD
      ((r.next (get_unvisited_neighbors cur W H visited).length).1) ⟨0, 0⟩ with hnxt
    have hlt : (r.next (get_unvisited_neighbors cur W H visited).length).1 <
        (get_unvisited_neighbors cur W H visited).length := by
      have h0 : 0 < (get_unvisited_neighbors cur W H visited).length :=
        List.length_pos.mpr hne
      exact Nat.mod_lt _ h0
    have hmem : nxt ∈ get_unvisited_neighbors cur W H visited := by
      rw [hnxt, List.getD_eq_getElem?_getD, List.getElem?_eq_getElem hlt, Option.getD_some]
      exact List.getElem_mem hlt
    have hcond := List.of_mem_filter hmem
    simp only [Bool.and_eq_true, decide_eq_true_eq] at hcond
    obtain ⟨hb, hv⟩ := hcond
    simp only [inBoundsB, decide_eq_true_eq] at hb
    have hbm : nxt ∈ boundedPositions W H \ visited := by
      rw [Finset.mem_sdiff]
      refine ⟨?_, hv⟩
      simp only [boundedPositions, Finset.mem_image, Finset.mem_product, Finset.mem_Icc,
        Prod.exists]
      exact ⟨nxt.x, nxt.y, ⟨⟨by omega, by omega⟩, ⟨by omega, by omega⟩⟩, rfl⟩
    have hins : boundedPositions W H \ insert nxt visited =
        (boundedPositions W H \ visited).erase nxt := by
      ext z
      simp only [Finset.mem_sdiff, Finset.mem_insert, Finset.mem_erase, not_or]
      tauto
    have hcard := Finset.card_erase_of_mem hbm
    have hpos : 0 < (boundedPositions W H \ visited).card := Finset.card_pos.mpr ⟨_, hbm⟩
    simp only [hins, hcard, List.length_cons]
    omega

/-- IterativeRecursiveBacktrackGenerator._ensure_exit_path: consume one random
boolean; clear the left wall of end_pos when it came out True and end_pos.x >
0, else clear the top wall when end_pos.y > 0; each clearing converts the cell
only when it is currently WALL. -/
def ensure_exit_path (g : Grid) (end_pos : Position) (W H : Nat) (r : RNG) : Grid × RNG :=
  if (r.next 2).1 = 0 ∧ end_pos.x > 0 then
    match cellAt g ⟨end_pos.x - 1, end_pos.y⟩ with
    | some c =>
      if c.cell_type = CellType.WALL then
        (setCell g ⟨end_pos.x - 1, end_pos.y⟩ CellType.EMPTY, (r.next 2).2)
      else (g, (r.next 2).2)
    | none => (g, (r.next 2).2)
  else if end_pos.y > 0 then
    match cellAt g ⟨end_pos.x, end_pos.y - 1⟩ with
    | some c =>
      if c.cell_type = CellType.WALL then
        (setCell g ⟨end_pos.x, end_pos.y - 1⟩ CellType.EMPTY, (r.next 2).2)
      else (g, (r.next 2).2)
    | none => (g, (r.next 2).2)
  else (g, (r.next 2).2)

/-- IterativeRecursiveBacktrackGenerator.generate: all-wall grid, mark the
terminals, run the carving loop seeded with the start position, then force
the exit-path clearing.  The RNG is threaded and returned, modelling the
global random state. -/
def IterativeRecursiveBacktrackGenerator.generate (W H : Nat)
    (start_pos end_pos : Position) (r : RNG) : Grid × RNG :=
  ensure_exit_path
    (genLoop W H (setCell (setCell (initGrid W H) start_pos CellType.START)
      end_pos CellType.END) [start_pos] {start_pos} r).1
    end_pos W H
    (genLoop W H (setCell (setCell (initGrid W H) start_pos CellType.START)
      end_pos CellType.END) [start_pos] {start_pos} r).2

/-- Grid component of generate. -/
def generateGrid (W H : Nat) (start_pos end_pos : Position) (r : RNG) : Grid :=
  (IterativeRecursiveBacktrackGenerator.generate W H start_pos end_pos r).1

/-! State-passing views of the pathfinders for the frame property: the grid
argument is threaded through the call and returned; no statement of any
find_path body assigns to the caller's grid (the dead-end filler builds the
separate working copy of cell kinds and converts cells only there). -/

/-- BFSPathfinder.find_path with the caller's grid threaded through. -/
def BFSPathfinder.find_path_st (g : Grid) (s e : Position) :
    Grid × Option (List Position) :=
  (g, BFSPathfinder.find_path g s e)

/-- AStarPathfinder.find_path with the caller's grid threaded through. -/
def AStarPathfinder.find_path_st (g : Grid) (s e : Position) :
    Grid × Option (List Position) :=
  (g, AStarPathfinder.find_path g s e)

/-- DijkstraPathfinder.find_path with the caller's grid threaded through. -/
def DijkstraPathfinder.find_path_st (g : Grid) (s e : Position) :
    Grid × Option (List Position) :=
  (g, DijkstraPathfinder.find_path g s e)

/-- DeadEndFillerPathfinder.find_path with the caller's grid threaded
through; the working copy is a fresh value, so the Wall conversions of
fillLoop never reach the grid component. -/
def DeadEndFillerPathfinder.find_path_st (g : Grid) (s e : Position) :
    Grid × Option (List Position) :=
  (g, DeadEndFillerPathfinder.find_path g s e)

/-! Path predicates used by the claim statements. -/

/-- A path all of whose positions (the start included) are in-bounds and
passable: the notion of passable path of the specification. -/
def FullyPassablePath (g : Grid) (startP endP : Position) (l : List Position) : Prop :=
  PathTo (okB (gridWidth g) (gridHeight g) (passableB g)) startP endP l ∧
    okB (gridWidth g) (gridHeight g) (passableB g) startP = true

/-- Consecutive positions at Manhattan distance exactly 1. -/
def AdjChain : List Position → Prop :=
  List.Chain' (fun p q => adjacentB p q = true)

/-- Loop invariant of the BFS frontier: every queue entry carries a valid
duplicate-free path ending at its position; queue positions and all path
positions are visited; a visited position absent from the queue has all its
admissible neighbours visited; the end position, once visited, still has a
queue entry; entry path lengths are nondecreasing along the queue and any two
differ by at most one; and every entry's path is a shortest valid path to its
position. -/
structure BfsInv (ok : Position → Bool) (startP endP : Position)
    (Q : List (Position × List Position)) (V : Finset Position) : Prop where
  sound : ∀ en ∈ Q, PathTo ok startP en.1 en.2
  nodup : ∀ en ∈ Q, en.2.Nodup
  inV : ∀ en ∈ Q, en.1 ∈ V
  pathV : ∀ en ∈ Q, ∀ q ∈ en.2, q ∈ V
  startV : startP ∈ V
  closedV : ∀ p ∈ V, (∀ en ∈ Q, en.1 ≠ p) → ∀ q, adjacentB p q = true → ok q = true → q ∈ V
  endQ : endP ∈ V → ∃ en ∈ Q, en.1 = endP
  sortedQ : List.Pairwise (fun a b => a ≤ b) (Q.map (fun en => en.2.length))
  tight : ∀ en ∈ Q, ∀ fn ∈ Q, en.2.length ≤ fn.2.length + 1
  shortest : ∀ en ∈ Q, ∀ l, PathTo ok startP en.1 l → en.2.length ≤ l.length

/-- Loop invariant of the A*/Dijkstra heap: entries carry valid duplicate-free
paths with g one less than the path length; every path position has a
recorded g score bounded by its index (so a cheaper route can never close a
cycle); every scored position and every admissible neighbour of a finalized
position is finalized or still on the heap; the start is finalized or on the
heap; and the end position is never finalized while the loop is running. -/
structure AInv (ok : Position → Bool) (startP endP : Position)
    (heap : List AEntry) (V : Finset Position) (gs : Position → Option Nat) : Prop where
  sound : ∀ en ∈ heap, PathTo ok startP en.pos en.path
  gcount : ∀ en ∈ heap, en.g + 1 = en.path.length
  gsIdx : ∀ en ∈ heap, ∀ i (h : i < en.path.length),
    ∃ rv, gs (en.path.get ⟨i, h⟩) = some rv ∧ rv ≤ i
  nodupP : ∀ en ∈ heap, en.path.Nodup
  gsDom : ∀ p rv, gs p = some rv → p ∈ V ∨ ∃ en ∈ heap, en.pos = p
  closedV : ∀ p ∈ V, ∀ q, adjacentB p q = true → ok q = true →
    q ∈ V ∨ ∃ en ∈ heap, en.pos = q
  startIn : startP ∈ V ∨ ∃ en ∈ heap, en.pos = startP
  endNotV : endP ∉ V

/-- Rectangular shape: height rows, each of width cells. -/
def GridShape (g : Grid) (W H : Nat) : Prop :=
  g.length = H ∧ ∀ row ∈ g, row.length = W

/-- Portion of the A*/Dijkstra invariant carried through the
neighbour-exploration fold: facts about the heap and score dictionary of an
intermediate AState, relative to the already-updated visited set. -/
def AStateOK (W H : Nat) (pass : Position → Bool) (startP : Position)
    (V' : Finset Position) (st : AState) : Prop :=
  (∀ en ∈ st.open_set, PathTo (okB W H pass) startP en.pos en.path) ∧
  (∀ en ∈ st.open_set, en.g + 1 = en.path.length) ∧
  (∀ en ∈ st.open_set, ∀ i (h : i < en.path.length),
    ∃ rv, st.g_scores (en.path.get ⟨i, h⟩) = some rv ∧ rv ≤ i) ∧
  (∀ en ∈ st.open_set, en.path.Nodup) ∧
  (∀ p rv, st.g_scores p = some rv → p ∈ V' ∨ ∃ en ∈ st.open_set, en.pos = p)

/-! Basic lemmas about paths and the search primitives. -/

theorem PathTo.length_pos {ok : Position → Bool} {s p : Position} {l : List Position}
    (h : PathTo ok s p l) : 0 < l.length := by
  induction h with
  | base => simp
  | step hp hadj hok ih => simp

theorem PathTo.ne_nil {ok : Position → Bool} {s p : Position} {l : List Position}
    (h : PathTo ok s p l) : l ≠ [] := by
  intro hl
  have := h.length_pos
  simp [hl] at this

theorem PathTo.head_eq {ok : Position → Bool} {s p : Position} {l : List Position}
    (h : PathTo ok s p l) : ∃ t, l = s :: t := by
  induction h with
  | base => exact ⟨[], rfl⟩
  | step hp hadj hok ih =>
    rename_i pp qq ll
    obtain ⟨t, ht⟩ := ih
    exact ⟨t ++ [qq], by rw [ht]; simp⟩

theorem PathTo.getLast_eq {ok : Position → Bool} {s p : Position} {l : List Position}
    (h : PathTo ok s p l) : l.getLast? = some p := by
  induction h with
  | base => rfl
  | step hp hadj hok ih => simp

theorem PathTo.mono {ok1 ok2 : Position → Bool} {s p : Position} {l : List Position}
    (himp : ∀ q, ok1 q = true → ok2 q = true) (h : PathTo ok1 s p l) :
    PathTo ok2 s p l := by
  induction h with
  | base => exact PathTo.base
  | step hp hadj hok ih => exact PathTo.step ih hadj (himp _ hok)

theorem PathTo.mem_ok {ok : Position → Bool} {s p : Position} {l : List Position}
    (h : PathTo ok s p l) : ∀ q ∈ l, q = s ∨ ok q = true := by
  induction h with
  | base => intro q hq; simp at hq; exact Or.inl hq
  | step hp hadj hok ih =>
    intro q hq
    rw [List.mem_append] at hq
    rcases hq with hq | hq
    · exact ih q hq
    · simp at hq
      exact Or.inr (hq ▸ hok)

theorem PathTo.tail_ok {ok : Position → Bool} {s p : Position} {l : List Position}
    (h : PathTo ok s p l) : ∀ q ∈ l.tail, ok q = true := by
  induction h with
  | base => intro q hq; simp at hq
  | step hp hadj hok ih =>
    rename_i pp qq ll
    intro q hq
    obtain ⟨t, ht⟩ := hp.head_eq
    subst ht
    simp only [List.cons_append, List.tail_cons, List.mem_append, List.mem_singleton] at hq
    rcases hq with hq | hq
    · exact ih q (by simpa using hq)
    · exact hq ▸ hok

theorem PathTo.adjChain {ok : Position → Bool} {s p : Position} {l : List Position}
    (h : PathTo ok s p l) : AdjChain l := by
  induction h with
  | base => simp [AdjChain]
  | step hp hadj hok ih =>
    rename_i pp qq ll
    rw [AdjChain, List.chain'_append]
    refine ⟨ih, List.chain'_singleton _, ?_⟩
    intro x hx y hy
    rw [hp.getLast_eq] at hx
    have hx2 : x = pp := by simpa [eq_comm] using hx
    have hy2 : y = qq := by simpa [eq_comm] using hy
    rw [hx2, hy2]
    exact hadj

theorem mem_neighborList_iff (p q : Position) :
    q ∈ neighborList p ↔ adjacentB p q = true := by
  obtain ⟨px, py⟩ := p
  obtain ⟨qx, qy⟩ := q
  simp only [neighborList, directions, adjacentB, List.map_cons, List.map_nil, List.mem_cons,
    List.not_mem_nil, or_false, Position.mk.injEq, decide_eq_true_eq]
  omega

/-- Membership in the filtered neighbour list of the BFS loop. -/
theorem mem_bfs_filter_iff (W H : Nat) (pass : Position → Bool) (V : Finset Position)
    (cur q : Position) :
    q ∈ (neighborList cur).filter
        (fun q => inBoundsB W H q && decide (q ∉ V) && pass q) ↔
      adjacentB cur q = true ∧ okB W H pass q = true ∧ q ∉ V := by
  rw [List.mem_filter, mem_neighborList_iff, okB]
  simp only [Bool.and_eq_true, decide_eq_true_eq]
  tauto

theorem bfsLoop_at_end (W H : Nat) (pass : Position → Bool) (endP : Position)
    (path : List Position) (rest : List (Position × List Position)) (V : Finset Position) :
    bfsLoop W H pass endP ((endP, path) :: rest) V = some path := by
  rw [bfsLoop]
  simp

/-! Claim C9: every pathfinder returns None on an empty grid or a grid with an
empty first row, without raising. -/

/-- C9: if the grid is empty or its first row is empty, all four pathfinder
strategies return the absent result. -/
theorem empty_grid_no_path (g : Grid) (s e : Position)
    (h : g = [] ∨ g.headD [] = []) :
    BFSPathfinder.find_path g s e = none ∧
    AStarPathfinder.find_path g s e = none ∧
    DijkstraPathfinder.find_path g s e = none ∧
    DeadEndFillerPathfinder.find_path g s e = none := by
  cases g with
  | nil =>
    exact ⟨rfl, rfl, rfl, rfl⟩
  | cons row0 rows =>
    have hrow : row0 = [] := by
      rcases h with h | h
      · exact absurd h (List.cons_ne_nil _ _)
      · simpa using h
    subst hrow
    refine ⟨?_, ?_, ?_, ?_⟩ <;>
      simp [BFSPathfinder.find_path, AStarPathfinder.find_path, DijkstraPathfinder.find_path,
        DeadEndFillerPathfinder.find_path]

/-- C9 witness: the empty grid. -/
theorem empty_grid_no_path_witness :
    ([] = ([] : Grid) ∨ ([] : Grid).headD [] = []) ∧
      BFSPathfinder.find_path [] ⟨0, 0⟩ ⟨0, 0⟩ = none ∧
      AStarPathfinder.find_path [] ⟨0, 0⟩ ⟨0, 0⟩ = none ∧
      DijkstraPathfinder.find_path [] ⟨0, 0⟩ ⟨0, 0⟩ = none ∧
      DeadEndFillerPathfinder.find_path [] ⟨0, 0⟩ ⟨0, 0⟩ = none :=
  ⟨Or.inl rfl, empty_grid_no_path [] ⟨0, 0⟩ ⟨0, 0⟩ (Or.inl rfl)⟩

/-! Claim C8: find_path(grid, p, p). -/

theorem bestFirstLoop_at_end (W H : Nat) (pass : Position → Bool) (h : Position → Nat)
    (endP : Position) (en : AEntry) (hpos : en.pos = endP)
    (gs : Position → Option Nat) (cnt : Nat) :
    bestFirstLoop W H pass h endP [en] ∅ gs cnt = some en.path := by
  rw [bestFirstLoop]
  simp [popMin, minEntry, hpos]

/-- C8 counterexample: on the empty grid with start = end every strategy
returns None, not the singleton path, so the claim fails for the empty grid. -/
theorem find_path_self_counterexample :
    BFSPathfinder.find_path [] ⟨0, 0⟩ ⟨0, 0⟩ ≠ some [⟨0, 0⟩] ∧
    AStarPathfinder.find_path [] ⟨0, 0⟩ ⟨0, 0⟩ ≠ some [⟨0, 0⟩] ∧
    DijkstraPathfinder.find_path [] ⟨0, 0⟩ ⟨0, 0⟩ ≠ some [⟨0, 0⟩] ∧
    DeadEndFillerPathfinder.find_path [] ⟨0, 0⟩ ⟨0, 0⟩ ≠ some [⟨0, 0⟩] := by
  refine ⟨?_, ?_, ?_, ?_⟩ <;> decide

/-- C8 (amended): on a nonempty grid whose first row is nonempty (and which is
rectangular, keeping the dead-end filler's scan inside the source's
non-raising behaviour), find_path(grid, p, p) returns the single-element path
[p] for all four strategies. -/
theorem find_path_self (g : Grid) (p : Position) (hg : g ≠ [])
    (hrow : g.headD [] ≠ []) (hrect : Rect g) :
    BFSPathfinder.find_path g p p = some [p] ∧
    AStarPathfinder.find_path g p p = some [p] ∧
    DijkstraPathfinder.find_path g p p = some [p] ∧
    DeadEndFillerPathfinder.find_path g p p = some [p] := by
  cases g with
  | nil => exact absurd rfl hg
  | cons row0 rows =>
    have hr : row0.isEmpty = false := by
      cases row0 with
      | nil => simp at hrow
      | cons a as => rfl
    refine ⟨?_, ?_, ?_, ?_⟩
    · rw [BFSPathfinder.find_path]
      simp only [hr, Bool.false_eq_true, if_false]
      exact bfsLoop_at_end _ _ _ _ _ _ _
    · rw [AStarPathfinder.find_path]
      simp only [hr, Bool.false_eq_true, if_false]
      exact bestFirstLoop_at_end _ _ _ _ _ ⟨0, 0, 0, p, [p]⟩ rfl _ _
    · rw [DijkstraPathfinder.find_path]
      simp only [hr, Bool.false_eq_true, if_false]
      exact bestFirstLoop_at_end _ _ _ _ _ ⟨0, 0, 0, p, [p]⟩ rfl _ _
    · rw [DeadEndFillerPathfinder.find_path]
      simp only [hr, Bool.false_eq_true, if_false]
      exact bfsLoop_at_end _ _ _ _ _ _ _

/-- C8 witness: the one-cell grid. -/
theorem find_path_self_witness :
    (([[⟨0, 0, CellType.START⟩]] : Grid) ≠ [] ∧
      ([[⟨0, 0, CellType.START⟩]] : Grid).headD [] ≠ [] ∧
      Rect [[⟨0, 0, CellType.START⟩]]) ∧
    BFSPathfinder.find_path [[⟨0, 0, CellType.START⟩]] ⟨0, 0⟩ ⟨0, 0⟩ = some [⟨0, 0⟩] ∧
    AStarPathfinder.find_path [[⟨0, 0, CellType.START⟩]] ⟨0, 0⟩ ⟨0, 0⟩ = some [⟨0, 0⟩] ∧
    DijkstraPathfinder.find_path [[⟨0, 0, CellType.START⟩]] ⟨0, 0⟩ ⟨0, 0⟩ = some [⟨0, 0⟩] ∧
    DeadEndFillerPathfinder.find_path [[⟨0, 0, CellType.START⟩]] ⟨0, 0⟩ ⟨0, 0⟩ =
      some [⟨0, 0⟩] :=
  ⟨⟨by decide, by decide,
      fun row hrw => by rw [List.mem_singleton] at hrw; rw [hrw]; rfl⟩,
    find_path_self [[⟨0, 0, CellType.START⟩]] ⟨0, 0⟩ (by decide) (by decide)
      (fun row hrw => by rw [List.mem_singleton] at hrw; rw [hrw]; rfl)⟩

/-! Claim C6: determinism of seeded generation. -/

/-- C6: generation is deterministic in the seed: generating twice, each time
freshly seeded with the same seed (as constructing the generator with that
seed does) and with the same dimensions and terminals, yields identical
grids.  The random module is modelled as a deterministic stream of the
seed, which is exactly the reproducibility property the source's
random.seed(seed) provides. -/
theorem generate_deterministic (W H : Nat) (s e : Position) (seed1 seed2 : Nat)
    (h : seed1 = seed2) :
    generateGrid W H s e (seededRNG seed1) = generateGrid W H s e (seededRNG seed2) := by
  rw [h]

/-- C6 witness: generate(11, 11, (1,1), (9,9)) with seed 42, twice. -/
theorem generate_deterministic_witness :
    42 = 42 ∧ generateGrid 11 11 ⟨1, 1⟩ ⟨9, 9⟩ (seededRNG 42) =
      generateGrid 11 11 ⟨1, 1⟩ ⟨9, 9⟩ (seededRNG 42) :=
  ⟨rfl, generate_deterministic 11 11 ⟨1, 1⟩ ⟨9, 9⟩ 42 42 rfl⟩

/-! Claim C10: find_path never mutates the caller's grid. -/

/-- C10: each find_path leaves the input grid unchanged: in the state-passing
view the returned grid component is the input grid, cell for cell, while the
path result is the same; the dead-end filler's Wall conversions happen only
inside the working copy built by workingCopy and transformed by fillLoop. -/
theorem find_path_frame (g : Grid) (s e : Position) :
    (BFSPathfinder.find_path_st g s e).1 = g ∧
    (AStarPathfinder.find_path_st g s e).1 = g ∧
    (DijkstraPathfinder.find_path_st g s e).1 = g ∧
    (DeadEndFillerPathfinder.find_path_st g s e).1 = g ∧
    (∀ p : Position, cellAt (DeadEndFillerPathfinder.find_path_st g s e).1 p = cellAt g p) ∧
    (BFSPathfinder.find_path_st g s e).2 = BFSPathfinder.find_path g s e ∧
    (AStarPathfinder.find_path_st g s e).2 = AStarPathfinder.find_path g s e ∧
    (DijkstraPathfinder.find_path_st g s e).2 = DijkstraPathfinder.find_path g s e ∧
    (DeadEndFillerPathfinder.find_path_st g s e).2 = DeadEndFillerPathfinder.find_path g s e :=
  ⟨rfl, rfl, rfl, rfl, fun _ => rfl, rfl, rfl, rfl, rfl⟩

/-! Correctness of the shared BFS frontier loop. -/

/-- Cut lemma: while the invariant holds, every valid path to an unvisited
position meets the queue at an entry that is no longer than the path, with
equality only if the entry sits at the path's endpoint. -/
theorem bfs_cut {ok : Position → Bool} {startP endP : Position}
    {Q : List (Position × List Position)} {V : Finset Position}
    (inv : BfsInv ok startP endP Q V) {z : Position} {l : List Position}
    (hp : PathTo ok startP z l) :
    z ∉ V → ∃ en ∈ Q, en.2.length ≤ l.length ∧ (en.2.length = l.length → en.1 = z) := by
  induction hp with
  | base => intro hz; exact absurd inv.startV hz
  | step hpp hadj hok ih =>
    rename_i pp qq ll
    intro hz
    by_cases hpV : pp ∈ V
    · by_cases hpQ : ∃ en ∈ Q, en.1 = pp
      · obtain ⟨en, henQ, hep⟩ := hpQ
        have hle := inv.shortest en henQ ll (by rw [hep]; exact hpp)
        refine ⟨en, henQ, ?_, ?_⟩
        · simp only [List.length_append, List.length_cons, List.length_nil]
          omega
        · intro heq
          exfalso
          simp only [List.length_append, List.length_cons, List.length_nil] at heq
          omega
      · push_neg at hpQ
        exact absurd (inv.closedV pp hpV hpQ qq hadj hok) hz
    · obtain ⟨en, henQ, hle, heq⟩ := ih hpV
      refine ⟨en, henQ, ?_, ?_⟩
      · simp only [List.length_append, List.length_cons, List.length_nil]
        omega
      · intro h2
        exfalso
        simp only [List.length_append, List.length_cons, List.length_nil] at h2
        omega

/-- The invariant holds at the initial BFS state. -/
theorem bfsInv_init (ok : Position → Bool) (startP endP : Position) :
    BfsInv ok startP endP [(startP, [startP])] {startP} := by
  refine ⟨?_, ?_, ?_, ?_, ?_, ?_, ?_, ?_, ?_, ?_⟩
  · intro en hen
    rw [List.mem_singleton] at hen
    subst hen
    exact PathTo.base
  · intro en hen
    rw [List.mem_singleton] at hen
    subst hen
    simp
  · intro en hen
    rw [List.mem_singleton] at hen
    subst hen
    simp
  · intro en hen q hq
    rw [List.mem_singleton] at hen
    subst hen
    simp only [List.mem_singleton] at hq
    simp [hq]
  · simp
  · intro p hp hnone q hadj hok
    exfalso
    rw [Finset.mem_singleton] at hp
    exact hnone (startP, [startP]) (List.mem_singleton.mpr rfl) (by rw [hp])
  · intro hend
    rw [Finset.mem_singleton] at hend
    exact ⟨(startP, [startP]), List.mem_singleton.mpr rfl, hend.symm⟩
  · simp
  · intro en hen fn hfn
    rw [List.mem_singleton] at hen hfn
    subst hen
    subst hfn
    simp
  · intro en hen l hl
    rw [List.mem_singleton] at hen
    subst hen
    have := hl.length_pos
    simpa using this

/-- Preservation of the invariant along one non-final BFS iteration. -/
theorem bfsInv_step {W H : Nat} {pass : Position → Bool} {startP endP : Position}
    {cur : Position} {path : List Position} {rest : List (Position × List Position)}
    {V : Finset Position}
    (inv : BfsInv (okB W H pass) startP endP ((cur, path) :: rest) V)
    (hne : cur ≠ endP) :
    BfsInv (okB W H pass) startP endP
      (rest ++ ((neighborList cur).filter
        (fun q => inBoundsB W H q && decide (q ∉ V) && pass q)).map
          (fun q => (q, path ++ [q])))
      (V ∪ ((neighborList cur).filter
        (fun q => inBoundsB W H q && decide (q ∉ V) && pass q)).toFinset) := by
  have hhead : (cur, path) ∈ (cur, path) :: rest := List.mem_cons_self _ _
  have hsoundh := inv.sound _ hhead
  have hmem2 : ∀ en, en ∈ rest ++ ((neighborList cur).filter
      (fun q => inBoundsB W H q && decide (q ∉ V) && pass q)).map
        (fun q => (q, path ++ [q])) →
      en ∈ rest ∨ ∃ q, (adjacentB cur q = true ∧ okB W H pass q = true ∧ q ∉ V) ∧
        en = (q, path ++ [q]) := by
    intro en hen
    rw [List.mem_append] at hen
    rcases hen with hen | hen
    · exact Or.inl hen
    · rw [List.mem_map] at hen
      obtain ⟨q, hq, rfl⟩ := hen
      exact Or.inr ⟨q, (mem_bfs_filter_iff W H pass V cur q).mp hq, rfl⟩
  have hheadlen : ∀ b ∈ rest, path.length ≤ b.2.length := by
    intro b hb
    have hs := inv.sortedQ
    rw [List.map_cons, List.pairwise_cons] at hs
    exact hs.1 _ (List.mem_map_of_mem _ hb)
  refine ⟨?_, ?_, ?_, ?_, ?_, ?_, ?_, ?_, ?_, ?_⟩
  · -- sound
    intro en hen
    rcases hmem2 en hen with hen | ⟨q, ⟨hadj, hok, hqv⟩, rfl⟩
    · exact inv.sound en (List.mem_cons_of_mem _ hen)
    · exact PathTo.step hsoundh hadj hok
  · -- nodup
    intro en hen
    rcases hmem2 en hen with hen | ⟨q, ⟨hadj, hok, hqv⟩, rfl⟩
    · exact inv.nodup en (List.mem_cons_of_mem _ hen)
    · rw [List.nodup_append]
      refine ⟨inv.nodup _ hhead, List.nodup_singleton _, ?_⟩
      intro a ha
      simp only [List.mem_singleton]
      intro haq
      subst haq
      exact hqv (inv.pathV _ hhead a ha)
  · -- inV
    intro en hen
    rcases hmem2 en hen with hen | ⟨q, ⟨hadj, hok, hqv⟩, rfl⟩
    · exact Finset.mem_union_left _ (inv.inV en (List.mem_cons_of_mem _ hen))
    · refine Finset.mem_union_right _ ?_
      rw [List.mem_toFinset, mem_bfs_filter_iff]
      exact ⟨hadj, hok, hqv⟩
  · -- pathV
    intro en hen q hq
    rcases hmem2 en hen with hen | ⟨z, ⟨hadj, hok, hzv⟩, rfl⟩
    · exact Finset.mem_union_left _ (inv.pathV en (List.mem_cons_of_mem _ hen) q hq)
    · rw [List.mem_append, List.mem_singleton] at hq
      rcases hq with hq | rfl
      · exact Finset.mem_union_left _ (inv.pathV _ hhead q hq)
      · refine Finset.mem_union_right _ ?_
        rw [List.mem_toFinset, mem_bfs_filter_iff]
        exact ⟨hadj, hok, hzv⟩
  · -- startV
    exact Finset.mem_union_left _ inv.startV
  · -- closedV
    intro p hp hnone q hadj hok
    rcases Finset.mem_union.mp hp with hp | hp
    · by_cases hpc : p = cur
      · subst hpc
        by_cases hqV : q ∈ V
        · exact Finset.mem_union_left _ hqV
        · refine Finset.mem_union_right _ ?_
          rw [List.mem_toFinset, mem_bfs_filter_iff]
          exact ⟨hadj, hok, hqV⟩
      · refine Finset.mem_union_left _ (inv.closedV p hp ?_ q hadj hok)
        intro en hen
        rcases List.mem_cons.mp hen with rfl | hen
        · exact fun hcp => hpc (by rw [← hcp])
        · exact hnone en (List.mem_append_left _ hen)
    · exfalso
      rw [List.mem_toFinset] at hp
      exact hnone (p, path ++ [p])
        (List.mem_append_right _ (List.mem_map_of_mem _ hp)) rfl
  · -- endQ
    intro hend
    rcases Finset.mem_union.mp hend with hend | hend
    · obtain ⟨en, hen, hene⟩ := inv.endQ hend
      rcases List.mem_cons.mp hen with rfl | hen
      · exact absurd hene hne
      · exact ⟨en, List.mem_append_left _ hen, hene⟩
    · rw [List.mem_toFinset] at hend
      exact ⟨(endP, path ++ [endP]),
        List.mem_append_right _ (List.mem_map_of_mem _ hend), rfl⟩
  · -- sortedQ
    rw [List.map_append, List.pairwise_append]
    refine ⟨?_, ?_, ?_⟩
    · have hs := inv.sortedQ
      rw [List.map_cons, List.pairwise_cons] at hs
      exact hs.2
    · rw [List.map_map]
      have hnd : ((neighborList cur).filter
          (fun q => inBoundsB W H q && decide (q ∉ V) && pass q)).Nodup := by
        refine List.Nodup.filter _ ?_
        have : (neighborList cur).Nodup := by
          obtain ⟨cx, cy⟩ := cur
          simp [neighborList, directions, Position.mk.injEq]
          try omega
        exact this
      rw [List.pairwise_map]
      exact List.Pairwise.imp (fun _ => by simp) hnd
    · intro a ha b hb
      rw [List.mem_map] at ha
      obtain ⟨en, hen, rfl⟩ := ha
      rw [List.map_map, List.mem_map] at hb
      obtain ⟨q, hq, rfl⟩ := hb
      have htt := inv.tight en (List.mem_cons_of_mem _ hen) (cur, path) hhead
      dsimp only at htt ⊢
      simp only [Function.comp_apply, List.length_append, List.length_cons, List.length_nil]
      omega
  · -- tight
    intro en hen fn hfn
    rcases hmem2 en hen with hen2 | ⟨q, ⟨hadjq, hokq, hqv⟩, rfl⟩ <;>
      rcases hmem2 fn hfn with hfn2 | ⟨z, ⟨hadjz, hokz, hzv⟩, rfl⟩
    · exact inv.tight en (List.mem_cons_of_mem _ hen2) fn (List.mem_cons_of_mem _ hfn2)
    · have htt := inv.tight en (List.mem_cons_of_mem _ hen2) (cur, path) hhead
      dsimp only at htt ⊢
      simp only [List.length_append, List.length_cons, List.length_nil]
      omega
    · have htt := hheadlen fn hfn2
      dsimp only at htt ⊢
      simp only [List.length_append, List.length_cons, List.length_nil]
      omega
    · simp
  · -- shortest
    intro en hen l hl
    rcases hmem2 en hen with hen2 | ⟨q, ⟨hadjq, hokq, hqv⟩, rfl⟩
    · exact inv.shortest en (List.mem_cons_of_mem _ hen2) l hl
    · obtain ⟨fn, hfnQ, hfle, hfeq⟩ := bfs_cut inv hl hqv
      have hfV := inv.inV fn hfnQ
      have hflt : fn.2.length < l.length := by
        rcases lt_or_eq_of_le hfle with h | h
        · exact h
        · exfalso
          apply hqv
          have h2 := hfeq h
          dsimp only at h2
          exact h2 ▸ hfV
      have hhf : path.length ≤ fn.2.length := by
        rcases List.mem_cons.mp hfnQ with rfl | hfn2
        · exact le_refl _
        · exact hheadlen fn hfn2
      simp only [List.length_append, List.length_cons, List.length_nil]
      omega

/-- Full functional specification of the BFS loop from any state satisfying
the invariant: a returned path is a duplicate-free valid path to the end
position of minimal length among all valid paths, and None is returned only
when no valid path to the end position exists. -/
theorem bfsLoop_spec (W H : Nat) (pass : Position → Bool) (startP endP : Position) :
    ∀ (Q : List (Position × List Position)) (V : Finset Position),
      BfsInv (okB W H pass) startP endP Q V →
      (∀ l, bfsLoop W H pass endP Q V = some l →
        PathTo (okB W H pass) startP endP l ∧ l.Nodup ∧
          ∀ m, PathTo (okB W H pass) startP endP m → l.length ≤ m.length) ∧
      (bfsLoop W H pass endP Q V = none →
        ∀ m, ¬ PathTo (okB W H pass) startP endP m) := by
  intro Q V
  induction Q, V using bfsLoop.induct W H pass endP with
  | case1 V =>
    intro inv
    constructor
    · intro l hl
      rw [bfsLoop] at hl
      exact absurd hl (by simp)
    · intro _ m hm
      have hall : ∀ z lm, PathTo (okB W H pass) startP z lm → z ∈ V := by
        intro z lm hzm
        induction hzm with
        | base => exact inv.startV
        | step hpp hadj hok ih =>
          exact inv.closedV _ ih (fun en hen => absurd hen (List.not_mem_nil en)) _ hadj hok
      obtain ⟨en, hen, -⟩ := inv.endQ (hall endP m hm)
      exact absurd hen (List.not_mem_nil en)
  | case2 path rest V =>
    intro inv
    constructor
    · intro l hl
      rw [bfsLoop_at_end] at hl
      injection hl with hl
      subst hl
      exact ⟨inv.sound _ (List.mem_cons_self _ _), inv.nodup _ (List.mem_cons_self _ _),
        fun m hm => inv.shortest _ (List.mem_cons_self _ _) m hm⟩
    · intro hl
      rw [bfsLoop_at_end] at hl
      exact absurd hl (by simp)
  | case3 cur path rest V hne ih =>
    intro inv
    have hrec := ih (bfsInv_step inv hne)
    rw [bfsLoop]
    simp only [hne, if_false]
    exact hrec

theorem BFSPathfinder.find_path_eq_bfs (row0 : List Cell) (rows : List (List Cell))
    (s e : Position) (hrow : row0 ≠ []) :
    BFSPathfinder.find_path (row0 :: rows) s e =
      bfsLoop (gridWidth (row0 :: rows)) (gridHeight (row0 :: rows))
        (passableB (row0 :: rows)) e [(s, [s])] {s} := by
  rw [BFSPathfinder.find_path]
  have hr : row0.isEmpty = false := by
    cases row0 with
    | nil => exact absurd rfl hrow
    | cons a as => rfl
  simp only [hr, Bool.false_eq_true, if_false]

/-! Claim C3: BFS optimality and exhaustiveness. -/

/-- C3 counterexample: BFS never checks the start cell's passability, so on a
grid whose start cell is a Wall it can return a path even though no fully
passable path from start to end exists; "absent exactly when no passable path
exists" fails at this input. -/
theorem bfs_shortest_counterexample :
    BFSPathfinder.find_path [[⟨0, 0, CellType.WALL⟩, ⟨1, 0, CellType.EMPTY⟩]]
        ⟨0, 0⟩ ⟨1, 0⟩ = some [⟨0, 0⟩, ⟨1, 0⟩] ∧
    ¬ ∃ l, FullyPassablePath [[⟨0, 0, CellType.WALL⟩, ⟨1, 0, CellType.EMPTY⟩]]
        ⟨0, 0⟩ ⟨1, 0⟩ l := by
  constructor
  · rw [BFSPathfinder.find_path]
    simp only [List.isEmpty_cons, Bool.false_eq_true, if_false]
    rw [bfsLoop.eq_def]
    simp +decide [neighborList, directions, inBoundsB, passableB, cellAt, gridWidth, gridHeight]
    exact bfsLoop_at_end _ _ _ _ _ _ _
  · rintro ⟨l, -, hok⟩
    revert hok
    decide

/-- C3 (amended): for a start position that is itself in-bounds and passable
(and a grid with nonempty first row, rectangular so that the source raises
nowhere), BFSPathfinder.find_path returns a fully passable path of minimal
length among all fully passable start-end paths whenever one exists, and
returns None exactly when none exists. -/
theorem bfs_find_path_spec (g : Grid) (s e : Position)
    (hs : okB (gridWidth g) (gridHeight g) (passableB g) s = true)
    (hrow : g.headD [] ≠ []) (hrect : Rect g) :
    (∀ l, BFSPathfinder.find_path g s e = some l →
      FullyPassablePath g s e l ∧
        ∀ m, FullyPassablePath g s e m → l.length ≤ m.length) ∧
    (BFSPathfinder.find_path g s e = none ↔ ¬ ∃ l, FullyPassablePath g s e l) := by
  cases g with
  | nil =>
    rw [okB, Bool.and_eq_true, inBoundsB] at hs
    obtain ⟨h1, -⟩ := hs
    rw [decide_eq_true_eq] at h1
    simp only [gridWidth, List.headD_nil, List.length_nil, Nat.cast_zero] at h1
    omega
  | cons row0 rows =>
    have heq := BFSPathfinder.find_path_eq_bfs row0 rows s e (by simpa using hrow)
    have hspec := bfsLoop_spec (gridWidth (row0 :: rows)) (gridHeight (row0 :: rows))
      (passableB (row0 :: rows)) s e [(s, [s])] {s} (bfsInv_init _ s e)
    constructor
    · intro l hl
      rw [heq] at hl
      obtain ⟨hp, hnd, hmin⟩ := hspec.1 l hl
      exact ⟨⟨hp, hs⟩, fun m hm => hmin m hm.1⟩
    · constructor
      · intro hnone
        rw [heq] at hnone
        rintro ⟨l, hl, -⟩
        exact hspec.2 hnone l hl
      · intro hnex
        cases hcase : BFSPathfinder.find_path (row0 :: rows) s e with
        | none => rfl
        | some l =>
          exfalso
          rw [heq] at hcase
          obtain ⟨hp, -, -⟩ := hspec.1 l hcase
          exact hnex ⟨l, hp, hs⟩

/-- C3 witness: a two-cell grid Start-End. -/
theorem bfs_find_path_spec_witness :
    (okB (gridWidth [[⟨0, 0, CellType.START⟩, ⟨1, 0, CellType.END⟩]])
        (gridHeight [[⟨0, 0, CellType.START⟩, ⟨1, 0, CellType.END⟩]])
        (passableB [[⟨0, 0, CellType.START⟩, ⟨1, 0, CellType.END⟩]]) ⟨0, 0⟩ = true ∧
      ([[⟨0, 0, CellType.START⟩, ⟨1, 0, CellType.END⟩]] : Grid).headD [] ≠ [] ∧
      Rect [[⟨0, 0, CellType.START⟩, ⟨1, 0, CellType.END⟩]]) ∧
    ((∀ l, BFSPathfinder.find_path [[⟨0, 0, CellType.START⟩, ⟨1, 0, CellType.END⟩]]
        ⟨0, 0⟩ ⟨1, 0⟩ = some l →
      FullyPassablePath [[⟨0, 0, CellType.START⟩, ⟨1, 0, CellType.END⟩]] ⟨0, 0⟩ ⟨1, 0⟩ l ∧
        ∀ m, FullyPassablePath [[⟨0, 0, CellType.START⟩, ⟨1, 0, CellType.END⟩]]
          ⟨0, 0⟩ ⟨1, 0⟩ m → l.length ≤ m.length) ∧
    (BFSPathfinder.find_path [[⟨0, 0, CellType.START⟩, ⟨1, 0, CellType.END⟩]]
        ⟨0, 0⟩ ⟨1, 0⟩ = none ↔
      ¬ ∃ l, FullyPassablePath [[⟨0, 0, CellType.START⟩, ⟨1, 0, CellType.END⟩]]
        ⟨0, 0⟩ ⟨1, 0⟩ l)) :=
  ⟨⟨by decide, by decide,
      fun row hrw => by rw [List.mem_singleton] at hrw; rw [hrw]; rfl⟩,
    bfs_find_path_spec [[⟨0, 0, CellType.START⟩, ⟨1, 0, CellType.END⟩]] ⟨0, 0⟩ ⟨1, 0⟩
      (by decide) (by decide)
      (fun row hrw => by rw [List.mem_singleton] at hrw; rw [hrw]; rfl)⟩

/-! Soundness machinery for the shared A*/Dijkstra loop. -/

theorem aPush_step_spec (W H : Nat) (pass : Position → Bool) (hfun : Position → Nat)
    (startP ppos : Position) (ppath : List Position) (pg : Nat)
    (V' : Finset Position) (st : AState) (d : Position)
    (hadj : adjacentB ppos d = true)
    (hsp : PathTo (okB W H pass) startP ppos ppath)
    (hgp : pg + 1 = ppath.length)
    (hnp : ppath.Nodup)
    (hok : AStateOK W H pass startP V' st)
    (hpgs : ∀ i (h : i < ppath.length),
      ∃ rv, st.g_scores (ppath.get ⟨i, h⟩) = some rv ∧ rv ≤ i) :
    AStateOK W H pass startP V' (aPush W H pass hfun V' pg ppath st d) ∧
    (∀ i (h : i < ppath.length),
      ∃ rv, (aPush W H pass hfun V' pg ppath st d).g_scores (ppath.get ⟨i, h⟩) =
        some rv ∧ rv ≤ i) ∧
    (∀ en ∈ st.open_set, en ∈ (aPush W H pass hfun V' pg ppath st d).open_set) ∧
    (okB W H pass d = true →
      d ∈ V' ∨ ∃ en ∈ (aPush W H pass hfun V' pg ppath st d).open_set, en.pos = d) := by
  obtain ⟨s1, s2, s3, s4, s5⟩ := hok
  simp only [aPush]
  split
  next hcond =>
    have hcond2 := hcond
    simp only [Bool.and_eq_true, decide_eq_true_eq] at hcond2
    obtain ⟨⟨⟨hb, hv⟩, hp⟩, hg⟩ := hcond2
    have hdnp : d ∉ ppath := by
      intro hd
      obtain ⟨⟨i, hi⟩, hgeti⟩ := List.mem_iff_get.mp hd
      obtain ⟨rv, hrv, hle⟩ := hpgs i hi
      rw [hgeti] at hrv
      rw [hrv] at hg
      simp only [gsAllows, decide_eq_true_eq] at hg
      omega
    have hokd : okB W H pass d = true := by
      rw [okB, Bool.and_eq_true]
      exact ⟨hb, hp⟩
    refine ⟨⟨?_, ?_, ?_, ?_, ?_⟩, ?_, ?_, ?_⟩
    · intro en hen
      rcases List.mem_cons.mp hen with rfl | hen
      · exact PathTo.step hsp hadj hokd
      · exact s1 en hen
    · intro en hen
      rcases List.mem_cons.mp hen with rfl | hen
      · dsimp only
        simp only [List.length_append, List.length_cons, List.length_nil]
        omega
      · exact s2 en hen
    · intro en hen i hilt
      rcases List.mem_cons.mp hen with rfl | hen
      · dsimp only at hilt ⊢
        by_cases hi : i < ppath.length
        · have hget : (ppath ++ [d]).get ⟨i, hilt⟩ = ppath.get ⟨i, hi⟩ := by
            simp only [List.get_eq_getElem]
            exact List.getElem_append_left hi
          rw [hget]
          have hne2 : ppath.get ⟨i, hi⟩ ≠ d := by
            intro hc
            exact hdnp (hc ▸ List.get_mem ppath i hi)
          obtain ⟨rv, hrv, hle⟩ := hpgs i hi
          refine ⟨rv, ?_, hle⟩
          rw [if_neg hne2]
          exact hrv
        · have hieq : i = ppath.length := by
            simp only [List.length_append, List.length_cons, List.length_nil] at hilt
            omega
          subst hieq
          have hget : (ppath ++ [d]).get ⟨ppath.length, hilt⟩ = d := by
            simp only [List.get_eq_getElem]
            exact List.getElem_concat_length ppath d _ rfl _
          rw [hget]
          exact ⟨pg + 1, by rw [if_pos rfl], by omega⟩
      · obtain ⟨rv, hrv, hle⟩ := s3 en hen i hilt
        by_cases hz : en.path.get ⟨i, hilt⟩ = d
        · rw [hz] at hrv
          have hg2 := hg
          rw [hrv] at hg2
          simp only [gsAllows, decide_eq_true_eq] at hg2
          refine ⟨pg + 1, ?_, by omega⟩
          dsimp only
          rw [hz, if_pos rfl]
        · refine ⟨rv, ?_, hle⟩
          dsimp only
          rw [if_neg hz]
          exact hrv
    · intro en hen
      rcases List.mem_cons.mp hen with rfl | hen
      · dsimp only
        rw [List.nodup_append]
        refine ⟨hnp, List.nodup_singleton _, ?_⟩
        intro a ha
        simp only [List.mem_singleton]
        intro haq
        subst haq
        exact hdnp ha
      · exact s4 en hen
    · intro p rv hrv
      dsimp only at hrv
      by_cases hpd : p = d
      · refine Or.inr ⟨⟨pg + 1 + hfun d, pg + 1, st.counter + 1, d, ppath ++ [d]⟩,
          List.mem_cons_self _ _, ?_⟩
        exact hpd.symm
      · rw [if_neg hpd] at hrv
        rcases s5 p rv hrv with h | ⟨en, hen, hene⟩
        · exact Or.inl h
        · exact Or.inr ⟨en, List.mem_cons_of_mem _ hen, hene⟩
    · intro i hi
      obtain ⟨rv, hrv, hle⟩ := hpgs i hi
      have hz : ppath.get ⟨i, hi⟩ ≠ d := by
        intro hc
        exact hdnp (hc ▸ List.get_mem ppath i hi)
      refine ⟨rv, ?_, hle⟩
      dsimp only
      rw [if_neg hz]
      exact hrv
    · exact fun en hen => List.mem_cons_of_mem _ hen
    · exact fun _ => Or.inr ⟨⟨pg + 1 + hfun d, pg + 1, st.counter + 1, d, ppath ++ [d]⟩,
        List.mem_cons_self _ _, rfl⟩
  next hcond =>
    refine ⟨⟨s1, s2, s3, s4, s5⟩, hpgs, fun en hen => hen, ?_⟩
    intro hokd
    rw [okB, Bool.and_eq_true] at hokd
    obtain ⟨hb, hp⟩ := hokd
    by_cases hvd : d ∈ V'
    · exact Or.inl hvd
    · have hga : gsAllows (st.g_scores d) (pg + 1) = false := by
        cases hgab : gsAllows (st.g_scores d) (pg + 1) with
        | false => rfl
        | true =>
          exfalso
          apply hcond
          simp [hb, hp, hgab, hvd]
      cases hgs : st.g_scores d with
      | none =>
        rw [hgs] at hga
        simp [gsAllows] at hga
      | some old =>
        rcases s5 d old hgs with h | h
        · exact Or.inl h
        · exact Or.inr h

theorem aPush_fold_spec (W H : Nat) (pass : Position → Bool) (hfun : Position → Nat)
    (startP ppos : Position) (ppath : List Position) (pg : Nat) (V' : Finset Position)
    (hsp : PathTo (okB W H pass) startP ppos ppath)
    (hgp : pg + 1 = ppath.length)
    (hnp : ppath.Nodup) :
    ∀ (ds : List Position), (∀ d ∈ ds, adjacentB ppos d = true) →
    ∀ (st : AState),
      AStateOK W H pass startP V' st →
      (∀ i (h : i < ppath.length),
        ∃ rv, st.g_scores (ppath.get ⟨i, h⟩) = some rv ∧ rv ≤ i) →
      AStateOK W H pass startP V' (ds.foldl (aPush W H pass hfun V' pg ppath) st) ∧
      (∀ en ∈ st.open_set, en ∈ (ds.foldl (aPush W H pass hfun V' pg ppath) st).open_set) ∧
      (∀ d ∈ ds, okB W H pass d = true →
        d ∈ V' ∨
          ∃ en ∈ (ds.foldl (aPush W H pass hfun V' pg ppath) st).open_set, en.pos = d) := by
  intro ds
  induction ds with
  | nil =>
    intro _ st hok hpgs
    exact ⟨hok, fun en hen => hen, fun d hd => absurd hd (List.not_mem_nil d)⟩
  | cons d ds ih =>
    intro hadj st hok hpgs
    obtain ⟨hok2, hpgs2, hkeep, hcl⟩ := aPush_step_spec W H pass hfun startP ppos ppath pg V'
      st d (hadj d (List.mem_cons_self _ _)) hsp hgp hnp hok hpgs
    rw [List.foldl_cons]
    obtain ⟨fok, fkeep, fcl⟩ := ih (fun z hz => hadj z (List.mem_cons_of_mem _ hz))
      (aPush W H pass hfun V' pg ppath st d) hok2 hpgs2
    refine ⟨fok, fun en hen => fkeep en (hkeep en hen), ?_⟩
    intro z hz hokz
    rcases List.mem_cons.mp hz with rfl | hz
    · rcases hcl hokz with h | ⟨en, hen, hene⟩
      · exact Or.inl h
      · exact Or.inr ⟨en, fkeep en hen, hene⟩
    · exact fcl z hz hokz

theorem minEntry_mem : ∀ (xs : List AEntry) (x : AEntry), minEntry x xs ∈ x :: xs := by
  intro xs
  induction xs with
  | nil => intro x; simp [minEntry]
  | cons y ys ih =>
    intro x
    by_cases hk : x.keyLe (minEntry y ys)
    · simp [minEntry, hk]
    · simp only [minEntry, hk, if_false]
      exact List.mem_cons_of_mem _ (ih y)

theorem popMin_none (l : List AEntry) : popMin l = none ↔ l = [] := by
  cases l <;> simp [popMin]

theorem popMin_some {l : List AEntry} {e : AEntry} {rest : List AEntry}
    (h : popMin l = some (e, rest)) : e ∈ l ∧ rest = l.erase e := by
  cases l with
  | nil => simp [popMin] at h
  | cons x xs =>
    simp only [popMin, Option.some.injEq, Prod.mk.injEq] at h
    obtain ⟨h1, h2⟩ := h
    exact ⟨h1 ▸ minEntry_mem xs x, by rw [← h2, h1]⟩

theorem bestFirstLoop_eq_skip (W H : Nat) (pass : Position → Bool) (hfun : Position → Nat)
    (endP : Position) (heap : List AEntry) (V : Finset Position) (gs : Position → Option Nat)
    (cnt : Nat) (e : AEntry) (rest : List AEntry)
    (hpop : popMin heap = some (e, rest)) (hin : e.pos ∈ V) :
    bestFirstLoop W H pass hfun endP heap V gs cnt =
      bestFirstLoop W H pass hfun endP rest V gs cnt := by
  rw [bestFirstLoop]
  split
  next hx => rw [hpop] at hx; exact absurd hx (by simp)
  next e2 rest2 hx =>
    rw [hpop] at hx
    simp only [Option.some.injEq, Prod.mk.injEq] at hx
    obtain ⟨rfl, rfl⟩ := hx
    rw [if_pos hin]

theorem bestFirstLoop_eq_found (W H : Nat) (pass : Position → Bool) (hfun : Position → Nat)
    (endP : Position) (heap : List AEntry) (V : Finset Position) (gs : Position → Option Nat)
    (cnt : Nat) (e : AEntry) (rest : List AEntry)
    (hpop : popMin heap = some (e, rest)) (hnin : e.pos ∉ V) (hend : e.pos = endP) :
    bestFirstLoop W H pass hfun endP heap V gs cnt = some e.path := by
  rw [bestFirstLoop]
  split
  next hx => rw [hpop] at hx; exact absurd hx (by simp)
  next e2 rest2 hx =>
    rw [hpop] at hx
    simp only [Option.some.injEq, Prod.mk.injEq] at hx
    obtain ⟨rfl, rfl⟩ := hx
    rw [if_neg hnin, if_pos hend]

theorem bestFirstLoop_eq_explore (W H : Nat) (pass : Position → Bool) (hfun : Position → Nat)
    (endP : Position) (heap : List AEntry) (V : Finset Position) (gs : Position → Option Nat)
    (cnt : Nat) (e : AEntry) (rest : List AEntry)
    (hpop : popMin heap = some (e, rest)) (hnin : e.pos ∉ V) (hnend : e.pos ≠ endP) :
    bestFirstLoop W H pass hfun endP heap V gs cnt =
      bestFirstLoop W H pass hfun endP
        ((neighborList e.pos).foldl (aPush W H pass hfun (insert e.pos V) e.g e.path)
          ⟨rest, gs, cnt⟩).open_set
        (insert e.pos V)
        ((neighborList e.pos).foldl (aPush W H pass hfun (insert e.pos V) e.g e.path)
          ⟨rest, gs, cnt⟩).g_scores
        ((neighborList e.pos).foldl (aPush W H pass hfun (insert e.pos V) e.g e.path)
          ⟨rest, gs, cnt⟩).counter := by
  rw [bestFirstLoop]
  split
  next hx => rw [hpop] at hx; exact absurd hx (by simp)
  next e2 rest2 hx =>
    rw [hpop] at hx
    simp only [Option.some.injEq, Prod.mk.injEq] at hx
    obtain ⟨rfl, rfl⟩ := hx
    rw [if_neg hnin, if_neg hnend]

/-- Soundness and exhaustiveness of the A*/Dijkstra loop: a returned path is a
valid duplicate-free path from start to end, and None is returned only when no
valid path exists. -/
theorem bestFirstLoop_spec (W H : Nat) (pass : Position → Bool) (hfun : Position → Nat)
    (startP endP : Position) :
    ∀ (heap : List AEntry) (V : Finset Position) (gs : Position → Option Nat) (cnt : Nat),
      AInv (okB W H pass) startP endP heap V gs →
      (∀ l, bestFirstLoop W H pass hfun endP heap V gs cnt = some l →
        PathTo (okB W H pass) startP endP l ∧ l.Nodup) ∧
      (bestFirstLoop W H pass hfun endP heap V gs cnt = none →
        ∀ m, ¬ PathTo (okB W H pass) startP endP m) := by
  intro heap V gs cnt
  induction heap, V, gs, cnt using bestFirstLoop.induct W H pass hfun endP with
  | case1 heap V gs cnt hpop =>
    intro inv
    have hemp : heap = [] := (popMin_none heap).mp hpop
    subst hemp
    constructor
    · intro l hl
      rw [bestFirstLoop, hpop] at hl
      exact absurd hl (by simp)
    · intro _ m hm
      have hall : ∀ z lm, PathTo (okB W H pass) startP z lm → z ∈ V := by
        intro z lm hzm
        induction hzm with
        | base =>
          rcases inv.startIn with h | ⟨en, hen, -⟩
          · exact h
          · exact absurd hen (List.not_mem_nil en)
        | step hpp hadj hok ih =>
          rcases inv.closedV _ ih _ hadj hok with h | ⟨en, hen, -⟩
          · exact h
          · exact absurd hen (List.not_mem_nil en)
      exact inv.endNotV (hall endP m hm)
  | case2 heap V gs cnt e rest hpop hin ih =>
    intro inv
    obtain ⟨hein, hrest⟩ := popMin_some hpop
    have hmem : ∀ x ∈ rest, x ∈ heap := by
      intro x hx
      rw [hrest] at hx
      exact List.erase_subset _ _ hx
    have hmem2 : ∀ x ∈ heap, x = e ∨ x ∈ rest := by
      intro x hx
      rw [(List.perm_cons_erase hein).mem_iff] at hx
      rcases List.mem_cons.mp hx with h | h
      · exact Or.inl h
      · exact Or.inr (hrest ▸ h)
    have inv2 : AInv (okB W H pass) startP endP rest V gs := by
      refine ⟨fun en hen => inv.sound en (hmem en hen),
        fun en hen => inv.gcount en (hmem en hen),
        fun en hen => inv.gsIdx en (hmem en hen),
        fun en hen => inv.nodupP en (hmem en hen), ?_, ?_, ?_, inv.endNotV⟩
      · intro p rv hrv
        rcases inv.gsDom p rv hrv with h | ⟨en, hen, hene⟩
        · exact Or.inl h
        · rcases hmem2 en hen with rfl | hen2
          · exact Or.inl (hene ▸ hin)
          · exact Or.inr ⟨en, hen2, hene⟩
      · intro p hp q hadj hok
        rcases inv.closedV p hp q hadj hok with h | ⟨en, hen, hene⟩
        · exact Or.inl h
        · rcases hmem2 en hen with rfl | hen2
          · exact Or.inl (hene ▸ hin)
          · exact Or.inr ⟨en, hen2, hene⟩
      · rcases inv.startIn with h | ⟨en, hen, hene⟩
        · exact Or.inl h
        · rcases hmem2 en hen with rfl | hen2
          · exact Or.inl (hene ▸ hin)
          · exact Or.inr ⟨en, hen2, hene⟩
    have hrec := ih inv2
    rw [bestFirstLoop_eq_skip W H pass hfun endP heap V gs cnt e rest hpop hin]
    exact hrec
  | case3 heap V gs cnt e rest hpop hnin hend =>
    intro inv
    obtain ⟨hein, -⟩ := popMin_some hpop
    rw [bestFirstLoop_eq_found W H pass hfun endP heap V gs cnt e rest hpop hnin hend]
    constructor
    · intro l hl
      injection hl with hl
      subst hl
      exact ⟨hend ▸ inv.sound e hein, inv.nodupP e hein⟩
    · intro hl
      exact absurd hl (by simp)
  | case4 heap V gs cnt e rest hpop hnin hnend ih =>
    intro inv
    obtain ⟨hein, hrest⟩ := popMin_some hpop
    have hmem : ∀ x ∈ rest, x ∈ heap := by
      intro x hx
      rw [hrest] at hx
      exact List.erase_subset _ _ hx
    have hmem2 : ∀ x ∈ heap, x = e ∨ x ∈ rest := by
      intro x hx
      rw [(List.perm_cons_erase hein).mem_iff] at hx
      rcases List.mem_cons.mp hx with h | h
      · exact Or.inl h
      · exact Or.inr (hrest ▸ h)
    have hok0 : AStateOK W H pass startP (insert e.pos V) ⟨rest, gs, cnt⟩ := by
      refine ⟨fun en hen => inv.sound en (hmem en hen),
        fun en hen => inv.gcount en (hmem en hen),
        fun en hen => inv.gsIdx en (hmem en hen),
        fun en hen => inv.nodupP en (hmem en hen), ?_⟩
      intro p rv hrv
      rcases inv.gsDom p rv hrv with h | ⟨en, hen, hene⟩
      · exact Or.inl (Finset.mem_insert_of_mem h)
      · rcases hmem2 en hen with rfl | hen2
        · exact Or.inl (hene ▸ Finset.mem_insert_self _ _)
        · exact Or.inr ⟨en, hen2, hene⟩
    obtain ⟨⟨f1, f2, f3, f4, f5⟩, fkeep, fcl⟩ := aPush_fold_spec W H pass hfun startP e.pos
      e.path e.g (insert e.pos V) (inv.sound e hein) (inv.gcount e hein) (inv.nodupP e hein)
      (neighborList e.pos) (fun d hd => (mem_neighborList_iff e.pos d).mp hd)
      ⟨rest, gs, cnt⟩ hok0 (inv.gsIdx e hein)
    have inv2 : AInv (okB W H pass) startP endP
        ((neighborList e.pos).foldl (aPush W H pass hfun (insert e.pos V) e.g e.path)
          ⟨rest, gs, cnt⟩).open_set
        (insert e.pos V)
        ((neighborList e.pos).foldl (aPush W H pass hfun (insert e.pos V) e.g e.path)
          ⟨rest, gs, cnt⟩).g_scores := by
      refine ⟨f1, f2, f3, f4, f5, ?_, ?_, ?_⟩
      · intro p hp q hadj hok
        rcases Finset.mem_insert.mp hp with rfl | hp
        · exact fcl q ((mem_neighborList_iff e.pos q).mpr hadj) hok
        · rcases inv.closedV p hp q hadj hok with h | ⟨en, hen, hene⟩
          · exact Or.inl (Finset.mem_insert_of_mem h)
          · rcases hmem2 en hen with rfl | hen2
            · exact Or.inl (hene ▸ Finset.mem_insert_self _ _)
            · exact Or.inr ⟨en, fkeep en hen2, hene⟩
      · rcases inv.startIn with h | ⟨en, hen, hene⟩
        · exact Or.inl (Finset.mem_insert_of_mem h)
        · rcases hmem2 en hen with rfl | hen2
          · exact Or.inl (hene ▸ Finset.mem_insert_self _ _)
          · exact Or.inr ⟨en, fkeep en hen2, hene⟩
      · rw [Finset.mem_insert]
        push_neg
        exact ⟨fun hc => hnend hc.symm, inv.endNotV⟩
    have hrec := ih inv2
    rw [bestFirstLoop_eq_explore W H pass hfun endP heap V gs cnt e rest hpop hnin hnend]
    exact hrec

/-! Monotonicity of dead-end filling: converting cells to Wall only ever
shrinks the passable set, so passability in the filled working grid implies
passability in the original grid. -/

theorem wPassable_workingCopy (g : Grid) (p : Position) :
    wPassable (workingCopy g) p = passableB g p := by
  rw [wPassable, passableB, cellAt, wKindAt, workingCopy, List.getElem?_map]
  cases g[p.y.toNat]? with
  | none => rfl
  | some row =>
    simp only [Option.map_some', Option.some_bind, List.getElem?_map]
    cases row[p.x.toNat]? with
    | none => rfl
    | some c => rfl

theorem wKindAt_wSet_some {w : WGrid} {x y : Nat} {k : CellType} {x2 y2 : Nat}
    {k2 : CellType} (h : wKindAt (wSet w x y k) x2 y2 = some k2) :
    k2 = k ∨ wKindAt w x2 y2 = some k2 := by
  rw [wSet] at h
  cases hwy : w[y]? with
  | none => rw [hwy] at h; exact Or.inr h
  | some row =>
    rw [hwy] at h
    rw [wKindAt, Option.bind_eq_some] at h
    obtain ⟨row2, hrow2, hx2⟩ := h
    rw [List.getElem?_set] at hrow2
    by_cases hyy : y = y2
    · rw [if_pos hyy] at hrow2
      by_cases hylen : y < w.length
      · rw [if_pos hylen] at hrow2
        injection hrow2 with hrow2
        subst hrow2
        rw [List.getElem?_set] at hx2
        by_cases hxx : x = x2
        · rw [if_pos hxx] at hx2
          by_cases hxlen : x < row.length
          · rw [if_pos hxlen] at hx2
            injection hx2 with hx2
            exact Or.inl hx2.symm
          · rw [if_neg hxlen] at hx2
            exact absurd hx2 (by simp)
        · rw [if_neg hxx] at hx2
          subst hyy
          rw [wKindAt, Option.bind_eq_some]
          exact Or.inr ⟨row, hwy, hx2⟩
      · rw [if_neg hylen] at hrow2
        exact absurd hrow2 (by simp)
    · rw [if_neg hyy] at hrow2
      rw [wKindAt, Option.bind_eq_some]
      exact Or.inr ⟨row2, hrow2, hx2⟩

theorem wSet_passable_mono {w : WGrid} {x y : Nat} {p : Position}
    (h : wPassable (wSet w x y CellType.WALL) p = true) : wPassable w p = true := by
  rw [wPassable] at h ⊢
  cases hk : wKindAt (wSet w x y CellType.WALL) p.x.toNat p.y.toNat with
  | none => rw [hk] at h; exact absurd h (by simp)
  | some k2 =>
    rw [hk] at h
    rcases wKindAt_wSet_some hk with rfl | hw
    · exact absurd h (by simp [wPassableKind])
    · rw [hw]
      exact h

theorem fillCellStep_passable_mono (W H : Nat) (s e : Position) (wb : WGrid × Bool)
    (c : Nat × Nat) (p : Position)
    (h : wPassable (fillCellStep W H s e wb c).1 p = true) : wPassable wb.1 p = true := by
  rw [fillCellStep] at h
  cases hk : wKindAt wb.1 c.1 c.2 with
  | none => rw [hk] at h; exact h
  | some k =>
    rw [hk] at h
    dsimp only at h
    by_cases h1 : (¬(k = CellType.EMPTY ∨ k = CellType.PATH)) ∨
        (⟨(c.1 : Int), (c.2 : Int)⟩ : Position) = s ∨
        (⟨(c.1 : Int), (c.2 : Int)⟩ : Position) = e
    · rw [if_pos h1] at h
      exact h
    · rw [if_neg h1] at h
      by_cases h2 : countPassableNeighbors W H wb.1 c.1 c.2 ≤ 1
      · rw [if_pos h2] at h
        dsimp only at h
        exact wSet_passable_mono h
      · rw [if_neg h2] at h
        exact h

theorem fillPass_fold_passable_mono (W H : Nat) (s e : Position) (p : Position) :
    ∀ (cs : List (Nat × Nat)) (wb : WGrid × Bool),
      wPassable (cs.foldl (fillCellStep W H s e) wb).1 p = true →
        wPassable wb.1 p = true := by
  intro cs
  induction cs with
  | nil => intro wb h; exact h
  | cons c cs ih =>
    intro wb h
    rw [List.foldl_cons] at h
    exact fillCellStep_passable_mono W H s e wb c p (ih _ h)

theorem fillLoop_passable_mono (W H : Nat) (s e : Position) (p : Position) :
    ∀ (w : WGrid), wPassable (fillLoop W H s e w) p = true → wPassable w p = true := by
  intro w
  induction w using fillLoop.induct W H s e with
  | case1 w hch ih =>
    intro h
    rw [fillLoop, if_pos hch] at h
    exact fillPass_fold_passable_mono W H s e p _ _ (ih h)
  | case2 w hch =>
    intro h
    rw [fillLoop, if_neg hch] at h
    exact fillPass_fold_passable_mono W H s e p _ _ h

theorem filled_passable_mono (g : Grid) (s e : Position) (p : Position)
    (h : wPassable (fillLoop (gridWidth g) (gridHeight g) s e (workingCopy g)) p = true) :
    passableB g p = true := by
  rw [← wPassable_workingCopy]
  exact fillLoop_passable_mono _ _ s e p _ h

/-- The A*/Dijkstra invariant holds at the initial state of find_path. -/
theorem aInv_init (W H : Nat) (pass : Position → Bool) (startP endP : Position) :
    AInv (okB W H pass) startP endP [⟨0, 0, 0, startP, [startP]⟩] ∅
      (fun p => if p = startP then some 0 else none) := by
  refine ⟨?_, ?_, ?_, ?_, ?_, ?_, ?_, ?_⟩
  · intro en hen
    rw [List.mem_singleton] at hen
    subst hen
    exact PathTo.base
  · intro en hen
    rw [List.mem_singleton] at hen
    subst hen
    rfl
  · intro en hen i hi
    rw [List.mem_singleton] at hen
    subst hen
    dsimp only at hi ⊢
    have hi0 : i = 0 := by
      simp only [List.length_cons, List.length_nil] at hi
      omega
    subst hi0
    exact ⟨0, by simp, le_refl 0⟩
  · intro en hen
    rw [List.mem_singleton] at hen
    subst hen
    simp
  · intro p rv hrv
    by_cases hps : p = startP
    · exact Or.inr ⟨⟨0, 0, 0, startP, [startP]⟩, List.mem_singleton.mpr rfl, hps.symm⟩
    · rw [if_neg hps] at hrv
      exact absurd hrv (by simp)
  · intro p hp
    exact absurd hp (Finset.not_mem_empty p)
  · exact Or.inr ⟨⟨0, 0, 0, startP, [startP]⟩, List.mem_singleton.mpr rfl, rfl⟩
  · exact Finset.not_mem_empty endP

theorem AStarPathfinder.find_path_eq_astar (row0 : List Cell) (rows : List (List Cell))
    (s e : Position) (hrow : row0 ≠ []) :
    AStarPathfinder.find_path (row0 :: rows) s e =
      bestFirstLoop (gridWidth (row0 :: rows)) (gridHeight (row0 :: rows))
        (passableB (row0 :: rows)) (fun p => manhattan_distance p e) e
        [⟨0, 0, 0, s, [s]⟩] ∅ (fun p => if p = s then some 0 else none) 0 := by
  rw [AStarPathfinder.find_path]
  have hr : row0.isEmpty = false := by
    cases row0 with
    | nil => exact absurd rfl hrow
    | cons a as => rfl
  simp only [hr, Bool.false_eq_true, if_false]

theorem DijkstraPathfinder.find_path_eq_dijkstra (row0 : List Cell) (rows : List (List Cell))
    (s e : Position) (hrow : row0 ≠ []) :
    DijkstraPathfinder.find_path (row0 :: rows) s e =
      bestFirstLoop (gridWidth (row0 :: rows)) (gridHeight (row0 :: rows))
        (passableB (row0 :: rows)) (fun _ => 0) e
        [⟨0, 0, 0, s, [s]⟩] ∅ (fun p => if p = s then some 0 else none) 0 := by
  rw [DijkstraPathfinder.find_path]
  have hr : row0.isEmpty = false := by
    cases row0 with
    | nil => exact absurd rfl hrow
    | cons a as => rfl
  simp only [hr, Bool.false_eq_true, if_false]

theorem DeadEndFillerPathfinder.find_path_eq_filler (row0 : List Cell) (rows : List (List Cell))
    (s e : Position) (hrow : row0 ≠ []) :
    DeadEndFillerPathfinder.find_path (row0 :: rows) s e =
      bfsLoop (gridWidth (row0 :: rows)) (gridHeight (row0 :: rows))
        (wPassable (fillLoop (gridWidth (row0 :: rows)) (gridHeight (row0 :: rows)) s e
          (workingCopy (row0 :: rows))))
        e [(s, [s])] {s} := by
  rw [DeadEndFillerPathfinder.find_path]
  have hr : row0.isEmpty = false := by
    cases row0 with
    | nil => exact absurd rfl hrow
    | cons a as => rfl
  simp only [hr, Bool.false_eq_true, if_false]

/-! Claim C5: adjacency and passability of returned paths. -/

/-- C5 counterexample: with start = end on the one-Wall grid, every strategy
returns the path [start], whose only position does not refer to a passable
cell, so "every position in the path refers to a passable cell" fails. -/
theorem find_path_valid_counterexample :
    BFSPathfinder.find_path [[⟨0, 0, CellType.WALL⟩]] ⟨0, 0⟩ ⟨0, 0⟩ = some [⟨0, 0⟩] ∧
    AStarPathfinder.find_path [[⟨0, 0, CellType.WALL⟩]] ⟨0, 0⟩ ⟨0, 0⟩ = some [⟨0, 0⟩] ∧
    DijkstraPathfinder.find_path [[⟨0, 0, CellType.WALL⟩]] ⟨0, 0⟩ ⟨0, 0⟩ = some [⟨0, 0⟩] ∧
    DeadEndFillerPathfinder.find_path [[⟨0, 0, CellType.WALL⟩]] ⟨0, 0⟩ ⟨0, 0⟩ =
      some [⟨0, 0⟩] ∧
    passableB [[⟨0, 0, CellType.WALL⟩]] ⟨0, 0⟩ = false := by
  refine ⟨?_, ?_, ?_, ?_, by decide⟩
  · rw [BFSPathfinder.find_path_eq_bfs _ _ _ _ (by simp)]
    exact bfsLoop_at_end _ _ _ _ _ _ _
  · rw [AStarPathfinder.find_path_eq_astar _ _ _ _ (by simp)]
    exact bestFirstLoop_at_end _ _ _ _ _ ⟨0, 0, 0, ⟨0, 0⟩, [⟨0, 0⟩]⟩ rfl _ _
  · rw [DijkstraPathfinder.find_path_eq_dijkstra _ _ _ _ (by simp)]
    exact bestFirstLoop_at_end _ _ _ _ _ ⟨0, 0, 0, ⟨0, 0⟩, [⟨0, 0⟩]⟩ rfl _ _
  · rw [DeadEndFillerPathfinder.find_path_eq_filler _ _ _ _ (by simp)]
    exact bfsLoop_at_end _ _ _ _ _ _ _

/-- C5 (amended): every path returned by any of the four strategies steps by
Manhattan distance exactly 1 between consecutive positions, and every
position after the first refers to an in-bounds passable cell of the grid; the
first position is the start argument, whose cell the source never checks (the
unamended claim fails there, see the counterexample).  Rectangularity keeps
the embedding inside the source's non-raising behaviour. -/
theorem find_path_adjacency_valid (g : Grid) (s e : Position) (hrect : Rect g) :
    (∀ l, BFSPathfinder.find_path g s e = some l → AdjChain l ∧
      ∀ q ∈ l.tail, okB (gridWidth g) (gridHeight g) (passableB g) q = true) ∧
    (∀ l, AStarPathfinder.find_path g s e = some l → AdjChain l ∧
      ∀ q ∈ l.tail, okB (gridWidth g) (gridHeight g) (passableB g) q = true) ∧
    (∀ l, DijkstraPathfinder.find_path g s e = some l → AdjChain l ∧
      ∀ q ∈ l.tail, okB (gridWidth g) (gridHeight g) (passableB g) q = true) ∧
    (∀ l, DeadEndFillerPathfinder.find_path g s e = some l → AdjChain l ∧
      ∀ q ∈ l.tail, okB (gridWidth g) (gridHeight g) (passableB g) q = true) := by
  cases g with
  | nil =>
    refine ⟨?_, ?_, ?_, ?_⟩ <;>
      · intro l hl
        simp only [BFSPathfinder.find_path, AStarPathfinder.find_path,
          DijkstraPathfinder.find_path, DeadEndFillerPathfinder.find_path] at hl
        exact absurd hl (by simp)
  | cons row0 rows =>
    by_cases hrow : row0 = []
    · subst hrow
      refine ⟨?_, ?_, ?_, ?_⟩ <;>
        · intro l hl
          simp only [BFSPathfinder.find_path, AStarPathfinder.find_path,
            DijkstraPathfinder.find_path, DeadEndFillerPathfinder.find_path,
            List.isEmpty_nil, if_true] at hl
          exact absurd hl (by simp)
    · refine ⟨?_, ?_, ?_, ?_⟩
      · intro l hl
        rw [BFSPathfinder.find_path_eq_bfs _ _ _ _ hrow] at hl
        obtain ⟨hp, -, -⟩ := (bfsLoop_spec (gridWidth (row0 :: rows))
          (gridHeight (row0 :: rows)) (passableB (row0 :: rows)) s e
          [(s, [s])] {s} (bfsInv_init _ s e)).1 l hl
        exact ⟨hp.adjChain, hp.tail_ok⟩
      · intro l hl
        rw [AStarPathfinder.find_path_eq_astar _ _ _ _ hrow] at hl
        obtain ⟨hp, -⟩ := (bestFirstLoop_spec (gridWidth (row0 :: rows))
          (gridHeight (row0 :: rows)) (passableB (row0 :: rows))
          (fun p => manhattan_distance p e) s e
          [⟨0, 0, 0, s, [s]⟩] ∅ (fun p => if p = s then some 0 else none) 0
          (aInv_init _ _ _ s e)).1 l hl
        exact ⟨hp.adjChain, hp.tail_ok⟩
      · intro l hl
        rw [DijkstraPathfinder.find_path_eq_dijkstra _ _ _ _ hrow] at hl
        obtain ⟨hp, -⟩ := (bestFirstLoop_spec (gridWidth (row0 :: rows))
          (gridHeight (row0 :: rows)) (passableB (row0 :: rows))
          (fun _ => 0) s e
          [⟨0, 0, 0, s, [s]⟩] ∅ (fun p => if p = s then some 0 else none) 0
          (aInv_init _ _ _ s e)).1 l hl
        exact ⟨hp.adjChain, hp.tail_ok⟩
      · intro l hl
        rw [DeadEndFillerPathfinder.find_path_eq_filler _ _ _ _ hrow] at hl
        obtain ⟨hp, -, -⟩ := (bfsLoop_spec (gridWidth (row0 :: rows))
          (gridHeight (row0 :: rows))
          (wPassable (fillLoop (gridWidth (row0 :: rows)) (gridHeight (row0 :: rows)) s e
            (workingCopy (row0 :: rows))))
          s e [(s, [s])] {s} (bfsInv_init _ s e)).1 l hl
        refine ⟨hp.adjChain, ?_⟩
        intro q hq
        have hokw := hp.tail_ok q hq
        rw [okB, Bool.and_eq_true] at hokw ⊢
        exact ⟨hokw.1, filled_passable_mono (row0 :: rows) s e q hokw.2⟩

/-- C5 witness: the Start-End two-cell grid is rectangular. -/
theorem find_path_adjacency_valid_witness :
    Rect [[⟨0, 0, CellType.START⟩, ⟨1, 0, CellType.END⟩]] ∧
    ((∀ l, BFSPathfinder.find_path [[⟨0, 0, CellType.START⟩, ⟨1, 0, CellType.END⟩]]
        ⟨0, 0⟩ ⟨1, 0⟩ = some l → AdjChain l ∧
      ∀ q ∈ l.tail, okB (gridWidth [[⟨0, 0, CellType.START⟩, ⟨1, 0, CellType.END⟩]])
        (gridHeight [[⟨0, 0, CellType.START⟩, ⟨1, 0, CellType.END⟩]])
        (passableB [[⟨0, 0, CellType.START⟩, ⟨1, 0, CellType.END⟩]]) q = true) ∧
    (∀ l, AStarPathfinder.find_path [[⟨0, 0, CellType.START⟩, ⟨1, 0, CellType.END⟩]]
        ⟨0, 0⟩ ⟨1, 0⟩ = some l → AdjChain l ∧
      ∀ q ∈ l.tail, okB (gridWidth [[⟨0, 0, CellType.START⟩, ⟨1, 0, CellType.END⟩]])
        (gridHeight [[⟨0, 0, CellType.START⟩, ⟨1, 0, CellType.END⟩]])
        (passableB [[⟨0, 0, CellType.START⟩, ⟨1, 0, CellType.END⟩]]) q = true) ∧
    (∀ l, DijkstraPathfinder.find_path [[⟨0, 0, CellType.START⟩, ⟨1, 0, CellType.END⟩]]
        ⟨0, 0⟩ ⟨1, 0⟩ = some l → AdjChain l ∧
      ∀ q ∈ l.tail, okB (gridWidth [[⟨0, 0, CellType.START⟩, ⟨1, 0, CellType.END⟩]])
        (gridHeight [[⟨0, 0, CellType.START⟩, ⟨1, 0, CellType.END⟩]])
        (passableB [[⟨0, 0, CellType.START⟩, ⟨1, 0, CellType.END⟩]]) q = true) ∧
    (∀ l, DeadEndFillerPathfinder.find_path [[⟨0, 0, CellType.START⟩, ⟨1, 0, CellType.END⟩]]
        ⟨0, 0⟩ ⟨1, 0⟩ = some l → AdjChain l ∧
      ∀ q ∈ l.tail, okB (gridWidth [[⟨0, 0, CellType.START⟩, ⟨1, 0, CellType.END⟩]])
        (gridHeight [[⟨0, 0, CellType.START⟩, ⟨1, 0, CellType.END⟩]])
        (passableB [[⟨0, 0, CellType.START⟩, ⟨1, 0, CellType.END⟩]]) q = true)) :=
  ⟨fun row hrw => by rw [List.mem_singleton] at hrw; rw [hrw]; rfl,
    find_path_adjacency_valid [[⟨0, 0, CellType.START⟩, ⟨1, 0, CellType.END⟩]] ⟨0, 0⟩ ⟨1, 0⟩
      (fun row hrw => by rw [List.mem_singleton] at hrw; rw [hrw]; rfl)⟩

/-! Generator lemmas: shape preservation and terminal invariance. -/

theorem initGrid_shape (W H : Nat) : GridShape (initGrid W H) W H := by
  constructor
  · rw [initGrid, List.length_map, List.length_range]
  · intro row hrow
    simp only [initGrid, List.mem_map] at hrow
    obtain ⟨y, -, rfl⟩ := hrow
    rw [List.length_map, List.length_range]

theorem setCell_shape {g : Grid} {W H : Nat} (hs : GridShape g W H) (p : Position)
    (k : CellType) : GridShape (setCell g p k) W H := by
  rw [setCell]
  cases hg : g[p.y.toNat]? with
  | none => exact hs
  | some row =>
    constructor
    · simp [hs.1]
    · intro r hr
      rcases List.mem_or_eq_of_mem_set hr with hr | rfl
      · exact hs.2 r hr
      · rw [List.length_set]
        obtain ⟨hlt, hget⟩ := List.getElem?_eq_some.mp hg
        exact hget ▸ hs.2 _ (List.getElem_mem hlt)

theorem carveCell_shape {g : Grid} {W H : Nat} (hs : GridShape g W H) (p : Position) :
    GridShape (carveCell g p) W H := by
  rw [carveCell]
  cases cellAt g p with
  | none => exact hs
  | some c =>
    dsimp only
    by_cases ht : c.cell_type = CellType.START ∨ c.cell_type = CellType.END
    · rw [if_pos ht]; exact hs
    · rw [if_neg ht]; exact setCell_shape hs p CellType.EMPTY

theorem genLoop_shape (W H : Nat) :
    ∀ (g : Grid) (stack : List Position) (visited : Finset Position) (r : RNG)
      (W2 H2 : Nat), GridShape g W2 H2 → GridShape (genLoop W H g stack visited r).1 W2 H2 := by
  intro g stack visited r
  induction g, stack, visited, r using genLoop.induct W H with
  | case1 g visited r =>
    intro W2 H2 hs
    rw [genLoop]
    exact hs
  | case2 g visited r cur stackRest hns ih =>
    intro W2 H2 hs
    rw [genLoop, if_pos hns]
    exact ih W2 H2 hs
  | case3 g visited r cur stackRest hns ih =>
    intro W2 H2 hs
    rw [genLoop, if_neg hns]
    exact ih W2 H2 (carveCell_shape (carveCell_shape hs _) _)

theorem ensure_exit_shape {g : Grid} {W2 H2 : Nat} (hs : GridShape g W2 H2)
    (e : Position) (W H : Nat) (r : RNG) :
    GridShape (ensure_exit_path g e W H r).1 W2 H2 := by
  rw [ensure_exit_path]
  split
  · cases cellAt g ⟨e.x - 1, e.y⟩ with
    | none => exact hs
    | some c =>
      dsimp only
      split
      · exact setCell_shape hs _ _
      · exact hs
  · split
    · cases cellAt g ⟨e.x, e.y - 1⟩ with
      | none => exact hs
      | some c =>
        dsimp only
        split
        · exact setCell_shape hs _ _
        · exact hs
    · exact hs

/-- Shape of the generated grid: height rows of width cells each. -/
theorem generateGrid_shape (W H : Nat) (s e : Position) (r : RNG) :
    GridShape (generateGrid W H s e r) W H := by
  rw [generateGrid, IterativeRecursiveBacktrackGenerator.generate]
  exact ensure_exit_shape
    (genLoop_shape W H _ _ _ _ W H
      (setCell_shape (setCell_shape (initGrid_shape W H) s CellType.START) e CellType.END))
    e W H _

/-! Claim C7: totality of generation. -/

/-- C7: for positive dimensions and terminals inside the grid (so that no
indexing of the source can raise), the iterative generator terminates — it is
a total function in this embedding, defined by well-founded recursion on the
unvisited-cell count — and returns a height x width grid of cells. -/
theorem generate_total (W H : Nat) (s e : Position) (r : RNG)
    (hW : 0 < W) (hH : 0 < H)
    (hs : inBoundsB W H s = true) (he : inBoundsB W H e = true) :
    (generateGrid W H s e r).length = H ∧
    ∀ row ∈ generateGrid W H s e r, row.length = W :=
  ⟨(generateGrid_shape W H s e r).1, (generateGrid_shape W H s e r).2⟩

/-- C7 witness: the degenerate 3 x 3 maze. -/
theorem generate_total_witness :
    (0 < 3 ∧ 0 < 3 ∧ inBoundsB 3 3 ⟨1, 1⟩ = true) ∧
    (generateGrid 3 3 ⟨1, 1⟩ ⟨1, 1⟩ (seededRNG 0)).length = 3 ∧
    ∀ row ∈ generateGrid 3 3 ⟨1, 1⟩ ⟨1, 1⟩ (seededRNG 0), row.length = 3 :=
  ⟨⟨by decide, by decide, by decide⟩,
    generate_total 3 3 ⟨1, 1⟩ ⟨1, 1⟩ (seededRNG 0) (by decide) (by decide)
      (by decide) (by decide)⟩

theorem cellAt_depends_toNat {g : Grid} {p q : Position}
    (hx : p.x.toNat = q.x.toNat) (hy : p.y.toNat = q.y.toNat) :
    cellAt g p = cellAt g q := by
  rw [cellAt, cellAt, hx, hy]

theorem cellAt_setCell_ne {g : Grid} {p t : Position} {k : CellType}
    (h : p.x.toNat ≠ t.x.toNat ∨ p.y.toNat ≠ t.y.toNat) :
    cellAt (setCell g p k) t = cellAt g t := by
  rw [setCell]
  cases hg : g[p.y.toNat]? with
  | none => rfl
  | some row =>
    rw [cellAt, cellAt, List.getElem?_set]
    by_cases hyy : p.y.toNat = t.y.toNat
    · rw [if_pos hyy]
      have hxx : p.x.toNat ≠ t.x.toNat := by tauto
      obtain ⟨hylt, -⟩ := List.getElem?_eq_some.mp hg
      rw [if_pos hylt, ← hyy, hg]
      simp only [Option.some_bind]
      rw [List.getElem?_set, if_neg hxx]
    · rw [if_neg hyy]

theorem cellAt_setCell_self {g : Grid} {W H : Nat} (hsh : GridShape g W H) {p : Position}
    (hb : inBoundsB W H p = true) (k : CellType) :
    cellAt (setCell g p k) p = some ⟨p.x, p.y, k⟩ := by
  rw [inBoundsB, decide_eq_true_eq] at hb
  obtain ⟨h1, h2, h3, h4⟩ := hb
  have hylt : p.y.toNat < g.length := by
    rw [hsh.1]
    omega
  rw [setCell, List.getElem?_eq_getElem hylt]
  dsimp only
  rw [cellAt, List.getElem?_set, if_pos rfl, if_pos hylt]
  simp only [Option.some_bind]
  have hxlt : p.x.toNat < (g[p.y.toNat]).length := by
    rw [hsh.2 _ (List.getElem_mem hylt)]
    omega
  rw [List.getElem?_set, if_pos rfl, if_pos hxlt]

theorem pos_toNat_ne {s e : Position} (hs0 : 0 ≤ s.x) (hs1 : 0 ≤ s.y) (he0 : 0 ≤ e.x)
    (he1 : 0 ≤ e.y) (hne : s ≠ e) :
    e.x.toNat ≠ s.x.toNat ∨ e.y.toNat ≠ s.y.toNat := by
  by_contra hcon
  push_neg at hcon
  obtain ⟨hx, hy⟩ := hcon
  apply hne
  obtain ⟨sx, sy⟩ := s
  obtain ⟨ex, ey⟩ := e
  simp only [Position.mk.injEq]
  simp only at hx hy hs0 hs1 he0 he1
  omega

theorem carveCell_preserves_terminal {g : Grid} {t : Position} {c : Cell}
    (hc : cellAt g t = some c)
    (hk : c.cell_type = CellType.START ∨ c.cell_type = CellType.END) (p : Position) :
    cellAt (carveCell g p) t = cellAt g t := by
  rw [carveCell]
  cases hp : cellAt g p with
  | none => rfl
  | some cp =>
    dsimp only
    by_cases hterm : cp.cell_type = CellType.START ∨ cp.cell_type = CellType.END
    · rw [if_pos hterm]
    · rw [if_neg hterm]
      apply cellAt_setCell_ne
      by_contra hcon
      push_neg at hcon
      obtain ⟨hx, hy⟩ := hcon
      have heq : cellAt g p = cellAt g t := cellAt_depends_toNat hx hy
      rw [hp, hc] at heq
      injection heq with heq
      subst heq
      exact hterm hk

theorem ensure_exit_preserves_terminal {g : Grid} {t : Position} {c : Cell}
    (hc : cellAt g t = some c)
    (hk : c.cell_type = CellType.START ∨ c.cell_type = CellType.END)
    (e : Position) (W H : Nat) (r : RNG) :
    cellAt (ensure_exit_path g e W H r).1 t = cellAt g t := by
  have hkey : ∀ (q : Position) (cq : Cell), cellAt g q = some cq →
      cq.cell_type = CellType.WALL →
      cellAt (setCell g q CellType.EMPTY) t = cellAt g t := by
    intro q cq hq hqw
    apply cellAt_setCell_ne
    by_contra hcon
    push_neg at hcon
    obtain ⟨hx, hy⟩ := hcon
    have heq : cellAt g q = cellAt g t := cellAt_depends_toNat hx hy
    rw [hq, hc] at heq
    injection heq with heq
    subst heq
    rcases hk with hk | hk <;> rw [hqw] at hk <;> exact CellType.noConfusion hk
  rw [ensure_exit_path]
  split
  · cases hq : cellAt g ⟨e.x - 1, e.y⟩ with
    | none => rfl
    | some cq =>
      dsimp only
      by_cases hw : cq.cell_type = CellType.WALL
      · rw [if_pos hw]
        exact hkey _ cq hq hw
      · rw [if_neg hw]
  · split
    · cases hq : cellAt g ⟨e.x, e.y - 1⟩ with
      | none => rfl
      | some cq =>
        dsimp only
        by_cases hw : cq.cell_type = CellType.WALL
        · rw [if_pos hw]
          exact hkey _ cq hq hw
        · rw [if_neg hw]
    · rfl

theorem genLoop_preserves_terminal (W H : Nat) (s e : Position) :
    ∀ (g : Grid) (stack : List Position) (visited : Finset Position) (r : RNG),
      ∀ (cs ce : Cell),
      cellAt g s = some cs →
      (cs.cell_type = CellType.START ∨ cs.cell_type = CellType.END) →
      cellAt g e = some ce →
      (ce.cell_type = CellType.START ∨ ce.cell_type = CellType.END) →
      cellAt (genLoop W H g stack visited r).1 s = cellAt g s ∧
      cellAt (genLoop W H g stack visited r).1 e = cellAt g e := by
  intro g stack visited r
  induction g, stack, visited, r using genLoop.induct W H with
  | case1 g visited r =>
    intro cs ce hcs hks hce hke
    rw [genLoop]
    exact ⟨rfl, rfl⟩
  | case2 g visited r cur stackRest hns ih =>
    intro cs ce hcs hks hce hke
    rw [genLoop, if_pos hns]
    exact ih cs ce hcs hks hce hke
  | case3 g visited r cur stackRest hns ih =>
    intro cs ce hcs hks hce hke
    rw [genLoop, if_neg hns]
    have hc1s := carveCell_preserves_terminal hcs hks
      ((get_unvisited_neighbors cur W H visited).getD
        (r.next (get_unvisited_neighbors cur W H visited).length).1 ⟨0, 0⟩)
    have hc1e := carveCell_preserves_terminal hce hke
      ((get_unvisited_neighbors cur W H visited).getD
        (r.next (get_unvisited_neighbors cur W H visited).length).1 ⟨0, 0⟩)
    have hcs2 := hc1s.trans rfl
    have hcs1 : cellAt (carveCell g ((get_unvisited_neighbors cur W H visited).getD
        (r.next (get_unvisited_neighbors cur W H visited).length).1 ⟨0, 0⟩)) s =
        some cs := by rw [hc1s, hcs]
    have hce1 : cellAt (carveCell g ((get_unvisited_neighbors cur W H visited).getD
        (r.next (get_unvisited_neighbors cur W H visited).length).1 ⟨0, 0⟩)) e =
        some ce := by rw [hc1e, hce]
    have hc2s := carveCell_preserves_terminal hcs1 hks
      (⟨(cur.x + ((get_unvisited_neighbors cur W H visited).getD
          (r.next (get_unvisited_neighbors cur W H visited).length).1 ⟨0, 0⟩).x) / 2,
        (cur.y + ((get_unvisited_neighbors cur W H visited).getD
          (r.next (get_unvisited_neighbors cur W H visited).length).1 ⟨0, 0⟩).y) / 2⟩)
    have hc2e := carveCell_preserves_terminal hce1 hke
      (⟨(cur.x + ((get_unvisited_neighbors cur W H visited).getD
          (r.next (get_unvisited_neighbors cur W H visited).length).1 ⟨0, 0⟩).x) / 2,
        (cur.y + ((get_unvisited_neighbors cur W H visited).getD
          (r.next (get_unvisited_neighbors cur W H visited).length).1 ⟨0, 0⟩).y) / 2⟩)
    obtain ⟨ihs, ihe⟩ := ih cs ce (by rw [hc2s, hcs1]) hks (by rw [hc2e, hce1]) hke
    constructor
    · rw [ihs, hc2s, hc1s]
    · rw [ihe, hc2e, hc1e]

/-! Claim C4: terminal invariance. -/

/-- C4: for in-bounds distinct terminals, after generate the start cell has
kind START and the end cell kind END; moreover no single carving step (the
guarded Wall removal or neighbour marking of the loop, or the forced
exit-wall clearing) ever changes the cell of a position currently holding a
START or END cell. -/
theorem generate_terminals (W H : Nat) (s e : Position) (r : RNG)
    (hs : inBoundsB W H s = true) (he : inBoundsB W H e = true) (hne : s ≠ e) :
    cellAt (generateGrid W H s e r) s = some ⟨s.x, s.y, CellType.START⟩ ∧
    cellAt (generateGrid W H s e r) e = some ⟨e.x, e.y, CellType.END⟩ ∧
    (∀ (g : Grid) (p t : Position) (c : Cell), cellAt g t = some c →
      (c.cell_type = CellType.START ∨ c.cell_type = CellType.END) →
      cellAt (carveCell g p) t = cellAt g t) ∧
    (∀ (g : Grid) (t : Position) (c : Cell) (r2 : RNG), cellAt g t = some c →
      (c.cell_type = CellType.START ∨ c.cell_type = CellType.END) →
      cellAt (ensure_exit_path g e W H r2).1 t = cellAt g t) := by
  have hsb := hs
  have heb := he
  rw [inBoundsB, decide_eq_true_eq] at hsb heb
  have hnexy := pos_toNat_ne hsb.1 hsb.2.2.1 heb.1 heb.2.2.1 hne
  have hinit0 : cellAt (setCell (initGrid W H) s CellType.START) s =
      some ⟨s.x, s.y, CellType.START⟩ :=
    cellAt_setCell_self (initGrid_shape W H) hs CellType.START
  have hinit1 : cellAt (setCell (setCell (initGrid W H) s CellType.START) e CellType.END) s =
      some ⟨s.x, s.y, CellType.START⟩ := by
    rw [cellAt_setCell_ne hnexy, hinit0]
  have hinit2 : cellAt (setCell (setCell (initGrid W H) s CellType.START) e CellType.END) e =
      some ⟨e.x, e.y, CellType.END⟩ :=
    cellAt_setCell_self (setCell_shape (initGrid_shape W H) s CellType.START) he CellType.END
  obtain ⟨hgs, hge⟩ := genLoop_preserves_terminal W H s e
    (setCell (setCell (initGrid W H) s CellType.START) e CellType.END)
    [s] {s} r ⟨s.x, s.y, CellType.START⟩ ⟨e.x, e.y, CellType.END⟩
    hinit1 (Or.inl rfl) hinit2 (Or.inr rfl)
  have hgs2 : cellAt (genLoop W H
      (setCell (setCell (initGrid W H) s CellType.START) e CellType.END) [s] {s} r).1 s =
      some ⟨s.x, s.y, CellType.START⟩ := by rw [hgs, hinit1]
  have hge2 : cellAt (genLoop W H
      (setCell (setCell (initGrid W H) s CellType.START) e CellType.END) [s] {s} r).1 e =
      some ⟨e.x, e.y, CellType.END⟩ := by rw [hge, hinit2]
  refine ⟨?_, ?_, ?_, ?_⟩
  · rw [generateGrid, IterativeRecursiveBacktrackGenerator.generate]
    rw [ensure_exit_preserves_terminal hgs2 (Or.inl rfl) e W H _, hgs2]
  · rw [generateGrid, IterativeRecursiveBacktrackGenerator.generate]
    rw [ensure_exit_preserves_terminal hge2 (Or.inr rfl) e W H _, hge2]
  · intro g p t c hc hk
    exact carveCell_preserves_terminal hc hk p
  · intro g t c r2 hc hk
    exact ensure_exit_preserves_terminal hc hk e W H r2

/-- C4 witness: the 5 x 5 maze with canonical terminals. -/
theorem generate_terminals_witness :
    (inBoundsB 5 5 ⟨1, 1⟩ = true ∧ inBoundsB 5 5 ⟨3, 3⟩ = true ∧
      (⟨1, 1⟩ : Position) ≠ ⟨3, 3⟩) ∧
    cellAt (generateGrid 5 5 ⟨1, 1⟩ ⟨3, 3⟩ (seededRNG 7)) ⟨1, 1⟩ =
      some ⟨1, 1, CellType.START⟩ ∧
    cellAt (generateGrid 5 5 ⟨1, 1⟩ ⟨3, 3⟩ (seededRNG 7)) ⟨3, 3⟩ =
      some ⟨3, 3, CellType.END⟩ :=
  ⟨⟨by decide, by decide, by decide⟩,
    (generate_terminals 5 5 ⟨1, 1⟩ ⟨3, 3⟩ (seededRNG 7) (by decide) (by decide)
      (by decide)).1,
    (generate_terminals 5 5 ⟨1, 1⟩ ⟨3, 3⟩ (seededRNG 7) (by decide) (by decide)
      (by decide)).2.1⟩

/-! Claim C2 machinery: carving only grows the passable set, the carving loop
visits every odd-odd cell, and every visited cell is reachable from the start
in the final grid. -/

theorem cellAt_setCell_self_of_some {g : Grid} {q : Position} {cq : Cell}
    (h : cellAt g q = some cq) (k : CellType) :
    cellAt (setCell g q k) q = some ⟨q.x, q.y, k⟩ := by
  rw [cellAt, Option.bind_eq_some] at h
  obtain ⟨row, hrow, hcell⟩ := h
  obtain ⟨hylt, -⟩ := List.getElem?_eq_some.mp hrow
  obtain ⟨hxlt, -⟩ := List.getElem?_eq_some.mp hcell
  rw [setCell, hrow]
  dsimp only
  rw [cellAt, List.getElem?_set, if_pos rfl, if_pos hylt]
  simp only [Option.some_bind]
  rw [List.getElem?_set, if_pos rfl, if_pos hxlt]

theorem setCell_passable_mono {g : Grid} {q p : Position} {cq : Cell}
    (hq : cellAt g q = some cq) (h : passableB g p = true) :
    passableB (setCell g q CellType.EMPTY) p = true := by
  by_cases hal : q.x.toNat = p.x.toNat ∧ q.y.toNat = p.y.toNat
  · have heq : cellAt (setCell g q CellType.EMPTY) p =
        cellAt (setCell g q CellType.EMPTY) q := cellAt_depends_toNat hal.1.symm hal.2.symm
    rw [passableB, heq, cellAt_setCell_self_of_some hq]
    rfl
  · have hne : q.x.toNat ≠ p.x.toNat ∨ q.y.toNat ≠ p.y.toNat := by tauto
    rw [passableB, cellAt_setCell_ne hne]
    exact h

theorem carveCell_passable_mono {g : Grid} {q p : Position}
    (h : passableB g p = true) : passableB (carveCell g q) p = true := by
  rw [carveCell]
  cases hq : cellAt g q with
  | none => exact h
  | some cq =>
    dsimp only
    by_cases ht : cq.cell_type = CellType.START ∨ cq.cell_type = CellType.END
    · rw [if_pos ht]
      exact h
    · rw [if_neg ht]
      exact setCell_passable_mono hq h

theorem carveCell_passable_self {g : Grid} {q : Position} {c : Cell}
    (h : cellAt g q = some c) : passableB (carveCell g q) q = true := by
  rw [carveCell, h]
  dsimp only
  by_cases ht : c.cell_type = CellType.START ∨ c.cell_type = CellType.END
  · rw [if_pos ht, passableB, h]
    rcases ht with ht | ht <;> simp [Cell.is_passable, ht]
  · rw [if_neg ht, passableB, cellAt_setCell_self_of_some h]
    rfl

theorem cellAt_isSome_of_shape {g : Grid} {W H : Nat} {p : Position}
    (hsh : GridShape g W H) (hb : inBoundsB W H p = true) :
    ∃ c, cellAt g p = some c := by
  rw [inBoundsB, decide_eq_true_eq] at hb
  have hylt : p.y.toNat < g.length := by
    rw [hsh.1]
    omega
  have hxlt : p.x.toNat < (g[p.y.toNat]).length := by
    rw [hsh.2 _ (List.getElem_mem hylt)]
    omega
  refine ⟨(g[p.y.toNat])[p.x.toNat], ?_⟩
  rw [cellAt, List.getElem?_eq_getElem hylt]
  simp only [Option.some_bind]
  exact List.getElem?_eq_getElem hxlt

theorem stride_wall_spec (cur next : Position) (hmem : next ∈ strideNeighborList cur) :
    (adjacentB cur ⟨(cur.x + next.x) / 2, (cur.y + next.y) / 2⟩ = true ∧
      adjacentB (⟨(cur.x + next.x) / 2, (cur.y + next.y) / 2⟩ : Position) next = true) ∧
    ∀ (W H : Nat), inBoundsB W H cur = true → inBoundsB W H next = true →
      inBoundsB W H ⟨(cur.x + next.x) / 2, (cur.y + next.y) / 2⟩ = true := by
  simp only [strideNeighborList, strideDirections, List.map_cons, List.map_nil,
    List.mem_cons, List.not_mem_nil, or_false] at hmem
  have h2 : (2 : Int) ≠ 0 := by norm_num
  have hself : ∀ a : Int, a + (a + 0) = 2 * a := by intro a; ring
  have hplus : ∀ a : Int, a + (a + 2) = 2 * (a + 1) := by intro a; ring
  have hminus : ∀ a : Int, a + (a + -2) = 2 * (a - 1) := by intro a; ring
  rcases hmem with rfl | rfl | rfl | rfl <;>
    · dsimp only
      first
      | rw [hplus, hself, Int.mul_ediv_cancel_left _ h2, Int.mul_ediv_cancel_left _ h2]
      | rw [hself, hplus, Int.mul_ediv_cancel_left _ h2, Int.mul_ediv_cancel_left _ h2]
      | rw [hminus, hself, Int.mul_ediv_cancel_left _ h2, Int.mul_ediv_cancel_left _ h2]
      | rw [hself, hminus, Int.mul_ediv_cancel_left _ h2, Int.mul_ediv_cancel_left _ h2]
      refine ⟨⟨?_, ?_⟩, ?_⟩
      · rw [adjacentB, decide_eq_true_eq]
        dsimp only
        omega
      · rw [adjacentB, decide_eq_true_eq]
        dsimp only
        omega
      · intro W H hc hn
        rw [inBoundsB, decide_eq_true_eq] at hc hn ⊢
        dsimp only at hn ⊢
        omega

theorem gun_pick_mem {cur : Position} {W H : Nat} {visited : Finset Position} {r : RNG}
    (hne : get_unvisited_neighbors cur W H visited ≠ []) :
    (get_unvisited_neighbors cur W H visited).getD
      ((r.next (get_unvisited_neighbors cur W H visited).length).1) ⟨0, 0⟩ ∈
      get_unvisited_neighbors cur W H visited := by
  have hlt : (r.next (get_unvisited_neighbors cur W H visited).length).1 <
      (get_unvisited_neighbors cur W H visited).length :=
    Nat.mod_lt _ (List.length_pos.mpr hne)
  rw [List.getD_eq_getElem?_getD, List.getElem?_eq_getElem hlt, Option.getD_some]
  exact List.getElem_mem hlt

theorem mem_gun_iff (cur : Position) (W H : Nat) (visited : Finset Position) (q : Position) :
    q ∈ get_unvisited_neighbors cur W H visited ↔
      q ∈ strideNeighborList cur ∧ inBoundsB W H q = true ∧ q ∉ visited := by
  rw [get_unvisited_neighbors, List.mem_filter]
  simp only [Bool.and_eq_true, decide_eq_true_eq]
  try tauto

theorem ensure_exit_passable_mono {g : Grid} {p : Position} (e : Position) (W H : Nat)
    (r : RNG) (h : passableB g p = true) :
    passableB (ensure_exit_path g e W H r).1 p = true := by
  rw [ensure_exit_path]
  split
  · cases hq : cellAt g ⟨e.x - 1, e.y⟩ with
    | none => exact h
    | some cq =>
      dsimp only
      split
      · exact setCell_passable_mono hq h
      · exact h
  · split
    · cases hq : cellAt g ⟨e.x, e.y - 1⟩ with
      | none => exact h
      | some cq =>
        dsimp only
        split
        · exact setCell_passable_mono hq h
        · exact h
    · exact h

/-- Core connectivity invariant of the carving loop: from a state in which
every visited cell is reachable and every visited cell is on the stack or has
all its in-bounds stride-2 neighbours visited, the loop ends with a set of
cells containing the visited set, closed under in-bounds stride-2 moves, and
entirely reachable from the start in the final grid. -/
theorem genLoop_reach (W H : Nat) (startP : Position) :
    ∀ (g : Grid) (stack : List Position) (visited : Finset Position) (r : RNG),
      GridShape g W H →
      (∀ p ∈ visited, inBoundsB W H p = true) →
      (∀ p ∈ stack, p ∈ visited) →
      (∀ p ∈ visited, p ∈ stack ∨
        ∀ q ∈ strideNeighborList p, inBoundsB W H q = true → q ∈ visited) →
      (∀ p ∈ visited, ∃ l, PathTo (okB W H (passableB g)) startP p l) →
      ∃ V2 : Finset Position, visited ⊆ V2 ∧
        (∀ p ∈ V2, ∀ q ∈ strideNeighborList p, inBoundsB W H q = true → q ∈ V2) ∧
        ∀ p ∈ V2, ∃ l,
          PathTo (okB W H (passableB (genLoop W H g stack visited r).1)) startP p l := by
  intro g stack visited r
  induction g, stack, visited, r using genLoop.induct W H with
  | case1 g visited r =>
    intro hsh hvb hss hpc hre
    rw [genLoop]
    refine ⟨visited, Finset.Subset.refl _, ?_, hre⟩
    intro p hp q hq hqb
    rcases hpc p hp with hp2 | hcl
    · exact absurd hp2 (List.not_mem_nil p)
    · exact hcl q hq hqb
  | case2 g visited r cur stackRest hns ih =>
    intro hsh hvb hss hpc hre
    rw [genLoop, if_pos hns]
    apply ih hsh hvb
    · intro p hp
      exact hss p (List.mem_cons_of_mem _ hp)
    · intro p hp
      rcases hpc p hp with hp2 | hcl
      · rcases List.mem_cons.mp hp2 with rfl | hp3
        · right
          intro q hq hqb
          by_contra hqv
          have hq2 : q ∈ get_unvisited_neighbors p W H visited :=
            (mem_gun_iff p W H visited q).mpr ⟨hq, hqb, hqv⟩
          rw [hns] at hq2
          exact absurd hq2 (List.not_mem_nil q)
        · exact Or.inl hp3
      · exact Or.inr hcl
    · exact hre
  | case3 g visited r cur stackRest hns ih =>
    intro hsh hvb hss hpc hre
    rw [genLoop, if_neg hns]
    set nxt := (get_unvisited_neighbors cur W H visited).getD
      ((r.next (get_unvisited_neighbors cur W H visited).length).1) ⟨0, 0⟩ with hnxt
    have hmemn : nxt ∈ get_unvisited_neighbors cur W H visited := by
      rw [hnxt]
      exact gun_pick_mem hns
    obtain ⟨hstride, hnb, hnv⟩ := (mem_gun_iff cur W H visited nxt).mp hmemn
    have hcurv : cur ∈ visited := hss cur (List.mem_cons_self _ _)
    have hcurb : inBoundsB W H cur = true := hvb cur hcurv
    obtain ⟨⟨hadj1, hadj2⟩, hwb0⟩ := stride_wall_spec cur nxt hstride
    have hwb : inBoundsB W H (⟨(cur.x + nxt.x) / 2, (cur.y + nxt.y) / 2⟩ : Position) = true :=
      hwb0 W H hcurb hnb
    obtain ⟨cn, hcn⟩ := cellAt_isSome_of_shape hsh hnb
    have hsh1 : GridShape (carveCell g nxt) W H := carveCell_shape hsh nxt
    obtain ⟨cw, hcw⟩ := cellAt_isSome_of_shape hsh1 hwb
    have hsh2 : GridShape (carveCell (carveCell g nxt)
        ⟨(cur.x + nxt.x) / 2, (cur.y + nxt.y) / 2⟩) W H := carveCell_shape hsh1 _
    have hpw : passableB (carveCell (carveCell g nxt)
        ⟨(cur.x + nxt.x) / 2, (cur.y + nxt.y) / 2⟩)
        ⟨(cur.x + nxt.x) / 2, (cur.y + nxt.y) / 2⟩ = true := carveCell_passable_self hcw
    have hpn : passableB (carveCell (carveCell g nxt)
        ⟨(cur.x + nxt.x) / 2, (cur.y + nxt.y) / 2⟩) nxt = true :=
      carveCell_passable_mono (carveCell_passable_self hcn)
    have hre2 : ∀ p ∈ visited, ∃ l, PathTo (okB W H (passableB (carveCell (carveCell g nxt)
        ⟨(cur.x + nxt.x) / 2, (cur.y + nxt.y) / 2⟩))) startP p l := by
      intro p hp
      obtain ⟨l, hl⟩ := hre p hp
      refine ⟨l, hl.mono ?_⟩
      intro q hq
      rw [okB, Bool.and_eq_true] at hq ⊢
      exact ⟨hq.1, carveCell_passable_mono (carveCell_passable_mono hq.2)⟩
    have hrenxt : ∃ l, PathTo (okB W H (passableB (carveCell (carveCell g nxt)
        ⟨(cur.x + nxt.x) / 2, (cur.y + nxt.y) / 2⟩))) startP nxt l := by
      obtain ⟨l, hl⟩ := hre2 cur hcurv
      refine ⟨l ++ [⟨(cur.x + nxt.x) / 2, (cur.y + nxt.y) / 2⟩] ++ [nxt], ?_⟩
      refine PathTo.step (PathTo.step hl hadj1 ?_) hadj2 ?_
      · rw [okB, Bool.and_eq_true]
        exact ⟨hwb, hpw⟩
      · rw [okB, Bool.and_eq_true]
        exact ⟨hnb, hpn⟩
    have hvb2 : ∀ p ∈ insert nxt visited, inBoundsB W H p = true := by
      intro p hp
      rcases Finset.mem_insert.mp hp with rfl | hp
      · exact hnb
      · exact hvb p hp
    have hss2 : ∀ p ∈ nxt :: cur :: stackRest, p ∈ insert nxt visited := by
      intro p hp
      rcases List.mem_cons.mp hp with rfl | hp
      · exact Finset.mem_insert_self _ _
      · exact Finset.mem_insert_of_mem (hss p hp)
    have hpc2 : ∀ p ∈ insert nxt visited, p ∈ nxt :: cur :: stackRest ∨
        ∀ q ∈ strideNeighborList p, inBoundsB W H q = true → q ∈ insert nxt visited := by
      intro p hp
      rcases Finset.mem_insert.mp hp with rfl | hp
      · exact Or.inl (List.mem_cons_self _ _)
      · rcases hpc p hp with hp2 | hcl
        · exact Or.inl (List.mem_cons_of_mem _ hp2)
        · right
          intro q hq hqb
          exact Finset.mem_insert_of_mem (hcl q hq hqb)
    have hre3 : ∀ p ∈ insert nxt visited, ∃ l, PathTo (okB W H
        (passableB (carveCell (carveCell g nxt)
          ⟨(cur.x + nxt.x) / 2, (cur.y + nxt.y) / 2⟩))) startP p l := by
      intro p hp
      rcases Finset.mem_insert.mp hp with rfl | hp
      · exact hrenxt
      · exact hre2 p hp
    obtain ⟨V2, hsub, hcl2, hre4⟩ := ih hsh2 hvb2 hss2 hpc2 hre3
    exact ⟨V2, fun p hp => hsub (Finset.mem_insert_of_mem hp), hcl2, hre4⟩

/-- Any set containing (1,1) and closed under in-bounds stride-2 moves covers
every odd-odd position of the interior rectangle. -/
theorem stride_closure_covers (W H : Nat) (V : Finset Position)
    (hclosed : ∀ p ∈ V, ∀ q ∈ strideNeighborList p, inBoundsB W H q = true → q ∈ V)
    (hstart : Position.mk 1 1 ∈ V) :
    ∀ (k : Nat) (x y : Int), x.toNat + y.toNat ≤ k → Odd x → Odd y →
      1 ≤ x → x ≤ (W : Int) - 2 → 1 ≤ y → y ≤ (H : Int) - 2 →
      Position.mk x y ∈ V := by
  intro k
  induction k with
  | zero =>
    intro x y hk hox hoy h1 h2 h3 h4
    omega
  | succ n ih =>
    intro x y hk hox hoy h1 h2 h3 h4
    obtain ⟨mx, hmx⟩ := hox
    obtain ⟨my, hmy⟩ := hoy
    by_cases hx3 : 3 ≤ x
    · have hmem := ih (x - 2) y (by omega) ⟨mx - 1, by omega⟩ ⟨my, hmy⟩
        (by omega) (by omega) h3 h4
      apply hclosed _ hmem (Position.mk x y)
      · simp only [strideNeighborList, strideDirections, List.map_cons, List.map_nil,
          List.mem_cons, List.not_mem_nil, or_false, Position.mk.injEq]
        omega
      · rw [inBoundsB, decide_eq_true_eq]
        dsimp only
        omega
    · by_cases hy3 : 3 ≤ y
      · have hmem := ih x (y - 2) (by omega) ⟨mx, hmx⟩ ⟨my - 1, by omega⟩
          h1 h2 (by omega) (by omega)
        apply hclosed _ hmem (Position.mk x y)
        · simp only [strideNeighborList, strideDirections, List.map_cons, List.map_nil,
            List.mem_cons, List.not_mem_nil, or_false, Position.mk.injEq]
          omega
        · rw [inBoundsB, decide_eq_true_eq]
          dsimp only
          omega
      · have hx1 : x = 1 := by omega
        have hy1 : y = 1 := by omega
        subst hx1
        subst hy1
        exact hstart

/-! Claim C2: connectivity of generated grids. -/

/-- C2: for odd dimensions at least 5 and the canonical terminals (1,1) and
(width-2, height-2), BFS find_path on a freshly generated grid never returns
the absent result, for every random stream. -/
theorem generated_connected (W H : Nat) (r : RNG)
    (hoddW : W % 2 = 1) (hoddH : H % 2 = 1) (hW : 5 ≤ W) (hH : 5 ≤ H) :
    BFSPathfinder.find_path (generateGrid W H ⟨1, 1⟩ ⟨(W : Int) - 2, (H : Int) - 2⟩ r)
      ⟨1, 1⟩ ⟨(W : Int) - 2, (H : Int) - 2⟩ ≠ none := by
  have hsb : inBoundsB W H ⟨1, 1⟩ = true := by
    rw [inBoundsB, decide_eq_true_eq]
    dsimp only
    omega
  have hsh0 : GridShape (setCell (setCell (initGrid W H) ⟨1, 1⟩ CellType.START)
      ⟨(W : Int) - 2, (H : Int) - 2⟩ CellType.END) W H :=
    setCell_shape (setCell_shape (initGrid_shape W H) _ _) _ _
  obtain ⟨V2, hsub, hcl2, hre⟩ := genLoop_reach W H ⟨1, 1⟩
    (setCell (setCell (initGrid W H) ⟨1, 1⟩ CellType.START)
      ⟨(W : Int) - 2, (H : Int) - 2⟩ CellType.END)
    [⟨1, 1⟩] {⟨1, 1⟩} r hsh0
    (by
      intro p hp
      rw [Finset.mem_singleton] at hp
      subst hp
      exact hsb)
    (by
      intro p hp
      rw [List.mem_singleton] at hp
      subst hp
      exact Finset.mem_singleton_self _)
    (by
      intro p hp
      rw [Finset.mem_singleton] at hp
      subst hp
      exact Or.inl (List.mem_cons_self _ _))
    (by
      intro p hp
      rw [Finset.mem_singleton] at hp
      subst hp
      exact ⟨[⟨1, 1⟩], PathTo.base⟩)
  have hstart2 : Position.mk 1 1 ∈ V2 := hsub (Finset.mem_singleton_self _)
  have hend2 : Position.mk ((W : Int) - 2) ((H : Int) - 2) ∈ V2 := by
    obtain ⟨kW, hkW⟩ : ∃ k, W = 2 * k + 1 := ⟨W / 2, by omega⟩
    obtain ⟨kH, hkH⟩ : ∃ k, H = 2 * k + 1 := ⟨H / 2, by omega⟩
    exact stride_closure_covers W H V2 hcl2 hstart2
      (((W : Int) - 2).toNat + ((H : Int) - 2).toNat)
      ((W : Int) - 2) ((H : Int) - 2) (le_refl _)
      ⟨(kW : Int) - 1, by omega⟩ ⟨(kH : Int) - 1, by omega⟩
      (by omega) (by omega) (by omega) (by omega)
  obtain ⟨l, hl⟩ := hre _ hend2
  have hl2 : PathTo (okB W H (passableB
      (generateGrid W H ⟨1, 1⟩ ⟨(W : Int) - 2, (H : Int) - 2⟩ r))) ⟨1, 1⟩
      ⟨(W : Int) - 2, (H : Int) - 2⟩ l := by
    rw [generateGrid, IterativeRecursiveBacktrackGenerator.generate]
    refine hl.mono ?_
    intro q hq
    rw [okB, Bool.and_eq_true] at hq ⊢
    exact ⟨hq.1, ensure_exit_passable_mono _ W H _ hq.2⟩
  have hshape : GridShape (generateGrid W H ⟨1, 1⟩ ⟨(W : Int) - 2, (H : Int) - 2⟩ r) W H :=
    generateGrid_shape W H _ _ r
  cases hg : generateGrid W H ⟨1, 1⟩ ⟨(W : Int) - 2, (H : Int) - 2⟩ r with
  | nil =>
    rw [hg] at hshape
    have := hshape.1
    simp only [List.length_nil] at this
    omega
  | cons row0 rows =>
    rw [hg] at hshape hl2
    have hrow0 : row0.length = W := hshape.2 row0 (List.mem_cons_self _ _)
    have hrne : row0 ≠ [] := by
      intro hc
      rw [hc] at hrow0
      simp only [List.length_nil] at hrow0
      omega
    have hWw : gridWidth (row0 :: rows) = W := by
      rw [gridWidth, List.headD_cons, hrow0]
    have hHh : gridHeight (row0 :: rows) = H := hshape.1
    rw [BFSPathfinder.find_path_eq_bfs row0 rows _ _ hrne]
    intro hnone
    have hspec := (bfsLoop_spec (gridWidth (row0 :: rows)) (gridHeight (row0 :: rows))
      (passableB (row0 :: rows)) ⟨1, 1⟩ ⟨(W : Int) - 2, (H : Int) - 2⟩
      [(⟨1, 1⟩, [⟨1, 1⟩])] {⟨1, 1⟩} (bfsInv_init _ _ _)).2 hnone l
    rw [hWw, hHh] at hspec
    exact hspec hl2

/-- C2 witness: the 5 x 5 case with a concrete stream. -/
theorem generated_connected_witness :
    (5 % 2 = 1 ∧ 5 ≤ 5) ∧
    BFSPathfinder.find_path (generateGrid 5 5 ⟨1, 1⟩ ⟨(5 : Int) - 2, (5 : Int) - 2⟩
      (seededRNG 42)) ⟨1, 1⟩ ⟨(5 : Int) - 2, (5 : Int) - 2⟩ ≠ none :=
  ⟨⟨by decide, by decide⟩,
    generated_connected 5 5 (seededRNG 42) (by decide) (by decide) (by decide) (by decide)⟩

/-! Claim C1: the four strategies agree on tree-shaped (perfect) mazes.  A
perfect maze has exactly one duplicate-free passable path between any two
cells; under that uniqueness hypothesis all four searches return the very same
path, hence paths of equal length.  The dead-end filler part needs that the
fill fixpoint never converts a cell of the unique path: an interior cell of a
duplicate-free valid path has two distinct passable in-bounds neighbours, and
the endpoints are skipped by the pos == start/end guards of the source. -/

/-- Adjacency is symmetric: |dx| + |dy| is unchanged by swapping the ends. -/
theorem adjacentB_comm (p q : Position) : adjacentB p q = adjacentB q p := by
  rw [adjacentB, adjacentB, decide_eq_decide]
  omega

/-- The four neighbours of a position are pairwise distinct. -/
theorem neighborList_nodup (p : Position) : (neighborList p).Nodup := by
  obtain ⟨px, py⟩ := p
  simp only [neighborList, directions, List.map_cons, List.map_nil, List.nodup_cons,
    List.mem_cons, List.not_mem_nil, List.mem_singleton, or_false, List.nodup_nil, and_true,
    true_and, Position.mk.injEq, not_or]
  refine ⟨⟨?_, ?_, ?_⟩, ⟨?_, ?_⟩, ?_, ?_⟩ <;> intro hcon <;> first
  | exact hcon
  | omega

/-- A write at one cell of the working grid leaves every other cell's kind
unchanged. -/
theorem wKindAt_wSet_ne {w : WGrid} {x y : Nat} {k : CellType} {x2 y2 : Nat}
    (h : x ≠ x2 ∨ y ≠ y2) :
    wKindAt (wSet w x y k) x2 y2 = wKindAt w x2 y2 := by
  rw [wSet]
  cases hwy : w[y]? with
  | none => rfl
  | some row =>
    rw [wKindAt, wKindAt]
    by_cases hyy : y = y2
    · subst hyy
      have hylt : y < w.length := (List.getElem?_eq_some_iff.mp hwy).1
      rw [List.getElem?_set_self hylt, hwy]
      simp only [Option.some_bind]
      have hxx : x ≠ x2 := by tauto
      rw [List.getElem?_set_ne hxx]
    · rw [List.getElem?_set_ne hyy]

/-- A write at one cell of the working grid leaves the passability of every
position with different coordinates unchanged. -/
theorem wPassable_wSet_ne {w : WGrid} {x y : Nat} {k : CellType} {p : Position}
    (h : x ≠ p.x.toNat ∨ y ≠ p.y.toNat) :
    wPassable (wSet w x y k) p = wPassable w p := by
  rw [wPassable, wPassable, wKindAt_wSet_ne h]

/-- The neighbour count of the filler is the length of the filtered neighbour
list of the scanned position. -/
theorem countPassableNeighbors_eq (W H : Nat) (w : WGrid) (x y : Nat) :
    countPassableNeighbors W H w x y =
      ((neighborList ⟨(x : Int), (y : Int)⟩).filter
        (fun q => inBoundsB W H q && wPassable w q)).length := by
  rw [countPassableNeighbors, neighborList, List.filter_map, List.length_map]
  rfl

/-- A duplicate-free list with two distinct members satisfying the filter
predicate has at least two elements in the filtered list. -/
theorem two_le_filter_length {α : Type} [DecidableEq α] {l : List α} (hnd : l.Nodup)
    (p : α → Bool) {a b : α} (hab : a ≠ b) (ha : a ∈ l) (hb : b ∈ l)
    (hpa : p a = true) (hpb : p b = true) : 2 ≤ (l.filter p).length := by
  have hnd2 : (l.filter p).Nodup := hnd.filter p
  have ha2 : a ∈ l.filter p := List.mem_filter.mpr ⟨ha, hpa⟩
  have hb2 : b ∈ l.filter p := List.mem_filter.mpr ⟨hb, hpb⟩
  have hsub : ({a, b} : Finset α) ⊆ (l.filter p).toFinset := by
    intro z hz
    rcases Finset.mem_insert.mp hz with rfl | hz
    · exact List.mem_toFinset.mpr ha2
    · rw [Finset.mem_singleton] at hz
      subst hz
      exact List.mem_toFinset.mpr hb2
  calc 2 = ({a, b} : Finset α).card := (Finset.card_pair hab).symm
    _ ≤ (l.filter p).toFinset.card := Finset.card_le_card hsub
    _ = (l.filter p).length := List.toFinset_card_of_nodup hnd2

/-- If the start is admissible, every position of a valid path is
admissible. -/
theorem PathTo.all_ok {ok : Position → Bool} {s p : Position} {l : List Position}
    (h : PathTo ok s p l) (hs : ok s = true) : ∀ q ∈ l, ok q = true := by
  intro q hq
  rcases h.mem_ok q hq with rfl | h2
  · exact hs
  · exact h2

/-- A valid path stays valid under any admissibility test that accepts all of
its positions. -/
theorem PathTo.change_ok {ok1 ok2 : Position → Bool} {s p : Position} {l : List Position}
    (h : PathTo ok1 s p l) (h2 : ∀ q ∈ l, ok2 q = true) : PathTo ok2 s p l := by
  revert h2
  induction h with
  | base =>
    intro h2
    exact PathTo.base
  | step hp hadj hok ih =>
    rename_i pp qq ll
    intro h2
    exact PathTo.step (ih (fun r hr => h2 r (List.mem_append_left _ hr))) hadj
      (h2 qq (List.mem_append_right _ (List.mem_singleton.mpr rfl)))

/-- The only duplicate-free valid path from a position to itself is the
singleton path. -/
theorem nodup_path_self {ok : Position → Bool} {s : Position} {l : List Position}
    (h : PathTo ok s s l) (hnd : l.Nodup) : l = [s] := by
  cases h with
  | base => rfl
  | step hp hadj hok =>
    rename_i pp ll
    exfalso
    obtain ⟨t, ht⟩ := hp.head_eq
    subst ht
    obtain ⟨-, -, hdisj⟩ := List.nodup_append.mp hnd
    exact hdisj (List.mem_cons_self s t) (List.mem_singleton.mpr rfl)

/-- An interior position of a duplicate-free valid path (neither the start nor
the end) has two distinct adjacent positions on the path: its predecessor and
its successor. -/
theorem path_interior_two_neighbors {ok : Position → Bool} {s e : Position}
    {l : List Position} (h : PathTo ok s e l) (hnd : l.Nodup)
    {pos : Position} (hmem : pos ∈ l) (hps : pos ≠ s) (hpe : pos ≠ e) :
    ∃ a b : Position, a ≠ b ∧ a ∈ l ∧ b ∈ l ∧
      adjacentB pos a = true ∧ adjacentB pos b = true := by
  have hch : List.Chain' (fun p q => adjacentB p q = true) l := h.adjChain
  have hcg := List.chain'_iff_get.mp hch
  obtain ⟨n, hget⟩ := List.mem_iff_get.mp hmem
  obtain ⟨i, hi⟩ := n
  cases i with
  | zero =>
    exfalso
    obtain ⟨t, ht⟩ := h.head_eq
    subst ht
    rw [show (s :: t).get ⟨0, hi⟩ = s from rfl] at hget
    exact hps hget.symm
  | succ j =>
    have hlastlt : l.length - 1 < l.length := by omega
    have hlast : l.get ⟨l.length - 1, hlastlt⟩ = e := by
      have hg := h.getLast_eq
      rw [List.getLast?_eq_getElem?] at hg
      rw [List.get_eq_getElem]
      exact Option.some.inj ((List.getElem?_eq_getElem hlastlt).symm.trans hg)
    have hne : j + 1 ≠ l.length - 1 := by
      intro hj1
      apply hpe
      have hsame : l.get ⟨j + 1, hi⟩ = l.get ⟨l.length - 1, hlastlt⟩ := by
        congr 1
        exact Fin.ext hj1
      rw [← hget, hsame, hlast]
    have hj : j < l.length := by omega
    have hj2 : j + 2 < l.length := by omega
    refine ⟨l.get ⟨j, hj⟩, l.get ⟨j + 2, hj2⟩, ?_, List.get_mem l j hj,
      List.get_mem l (j + 2) hj2, ?_, ?_⟩
    · intro hab
      have hfin := List.nodup_iff_injective_get.mp hnd hab
      have hv := congrArg Fin.val hfin
      simp only at hv
      omega
    · rw [adjacentB_comm, ← hget]
      exact hcg j (by omega)
    · rw [← hget]
      exact hcg (j + 1) (by omega)

/-- One scan step of the filler keeps every position of a fixed path passable,
provided every path position is in bounds and every interior path position has
two distinct adjacent path positions: interior cells then have at least two
passable neighbours and are never converted, the endpoints are skipped by the
pos == start/end guards, and writes elsewhere do not touch the path. -/
theorem fillCellStep_preserves (W H : Nat) (s e : Position) (π : List Position)
    (hbounds : ∀ q ∈ π, inBoundsB W H q = true)
    (hints : ∀ pos ∈ π, pos ≠ s → pos ≠ e → ∃ a b : Position, a ≠ b ∧ a ∈ π ∧ b ∈ π ∧
      adjacentB pos a = true ∧ adjacentB pos b = true)
    (wb : WGrid × Bool) (c : Nat × Nat)
    (hsurv : ∀ q ∈ π, wPassable wb.1 q = true) :
    ∀ q ∈ π, wPassable (fillCellStep W H s e wb c).1 q = true := by
  intro q hq
  rw [fillCellStep]
  cases hk : wKindAt wb.1 c.1 c.2 with
  | none => exact hsurv q hq
  | some k =>
    dsimp only
    by_cases h1 : (¬(k = CellType.EMPTY ∨ k = CellType.PATH)) ∨
        (⟨(c.1 : Int), (c.2 : Int)⟩ : Position) = s ∨
        (⟨(c.1 : Int), (c.2 : Int)⟩ : Position) = e
    · rw [if_pos h1]
      exact hsurv q hq
    · rw [if_neg h1]
      push_neg at h1
      obtain ⟨hkEP, hps, hpe⟩ := h1
      by_cases h2 : countPassableNeighbors W H wb.1 c.1 c.2 ≤ 1
      · rw [if_pos h2]
        dsimp only
        have hpos_notin : (⟨(c.1 : Int), (c.2 : Int)⟩ : Position) ∉ π := by
          intro hin
          obtain ⟨a, b, hab, ha, hb, hadja, hadjb⟩ := hints _ hin hps hpe
          have h2c : 2 ≤ countPassableNeighbors W H wb.1 c.1 c.2 := by
            rw [countPassableNeighbors_eq]
            refine two_le_filter_length (neighborList_nodup _) _ hab
              ((mem_neighborList_iff _ _).mpr hadja) ((mem_neighborList_iff _ _).mpr hadjb)
              ?_ ?_
            · rw [Bool.and_eq_true]
              exact ⟨hbounds a ha, hsurv a ha⟩
            · rw [Bool.and_eq_true]
              exact ⟨hbounds b hb, hsurv b hb⟩
          omega
        have hqb := hbounds q hq
        rw [inBoundsB, decide_eq_true_eq] at hqb
        have hne : c.1 ≠ q.x.toNat ∨ c.2 ≠ q.y.toNat := by
          by_contra hcon
          push_neg at hcon
          apply hpos_notin
          have hqeq : q = (⟨(c.1 : Int), (c.2 : Int)⟩ : Position) := by
            obtain ⟨qx, qy⟩ := q
            obtain ⟨hc1, hc2⟩ := hcon
            dsimp only at hqb hc1 hc2
            simp only [Position.mk.injEq]
            constructor <;> omega
          rw [← hqeq]
          exact hq
        rw [wPassable_wSet_ne hne]
        exact hsurv q hq
      · rw [if_neg h2]
        exact hsurv q hq

/-- The fold of one full scan keeps every position of such a path passable. -/
theorem fillFold_preserves (W H : Nat) (s e : Position) (π : List Position)
    (hbounds : ∀ q ∈ π, inBoundsB W H q = true)
    (hints : ∀ pos ∈ π, pos ≠ s → pos ≠ e → ∃ a b : Position, a ≠ b ∧ a ∈ π ∧ b ∈ π ∧
      adjacentB pos a = true ∧ adjacentB pos b = true) :
    ∀ (cs : List (Nat × Nat)) (wb : WGrid × Bool),
      (∀ q ∈ π, wPassable wb.1 q = true) →
      ∀ q ∈ π, wPassable (cs.foldl (fillCellStep W H s e) wb).1 q = true := by
  intro cs
  induction cs with
  | nil => intro wb h; exact h
  | cons c cs ih =>
    intro wb h
    rw [List.foldl_cons]
    exact ih _ (fillCellStep_preserves W H s e π hbounds hints wb c h)

/-- The whole fill fixpoint keeps every position of such a path passable. -/
theorem fillLoop_preserves (W H : Nat) (s e : Position) (π : List Position)
    (hbounds : ∀ q ∈ π, inBoundsB W H q = true)
    (hints : ∀ pos ∈ π, pos ≠ s → pos ≠ e → ∃ a b : Position, a ≠ b ∧ a ∈ π ∧ b ∈ π ∧
      adjacentB pos a = true ∧ adjacentB pos b = true) :
    ∀ (w : WGrid), (∀ q ∈ π, wPassable w q = true) →
      ∀ q ∈ π, wPassable (fillLoop W H s e w) q = true := by
  intro w
  induction w using fillLoop.induct W H s e with
  | case1 w hch ih =>
    intro hsurv
    rw [fillLoop, if_pos hch]
    exact ih (fillFold_preserves W H s e π hbounds hints _ _ hsurv)
  | case2 w hch =>
    intro hsurv
    rw [fillLoop, if_neg hch]
    exact fillFold_preserves W H s e π hbounds hints _ _ hsurv

/-- C1: on a tree-shaped (perfect) maze — a grid on which there is exactly one
duplicate-free valid path from start to end, stated as the uniqueness
hypothesis together with the existence of such a path — the four strategies
BFSPathfinder, AStarPathfinder, DijkstraPathfinder and DeadEndFillerPathfinder
all return that very path from find_path, in particular paths of equal
length.  The grid is rectangular with a nonempty first row and the start
position is in bounds and passable. -/
theorem strategies_equal_length (row0 : List Cell) (rows : List (List Cell)) (s e : Position)
    (hrow : row0 ≠ []) (hrect : Rect (row0 :: rows))
    (hs : okB (gridWidth (row0 :: rows)) (gridHeight (row0 :: rows))
      (passableB (row0 :: rows)) s = true)
    (hex : ∃ l, PathTo (okB (gridWidth (row0 :: rows)) (gridHeight (row0 :: rows))
      (passableB (row0 :: rows))) s e l ∧ l.Nodup)
    (huniq : ∀ l1 l2,
      PathTo (okB (gridWidth (row0 :: rows)) (gridHeight (row0 :: rows))
        (passableB (row0 :: rows))) s e l1 → l1.Nodup →
      PathTo (okB (gridWidth (row0 :: rows)) (gridHeight (row0 :: rows))
        (passableB (row0 :: rows))) s e l2 → l2.Nodup → l1 = l2) :
    ∃ π, BFSPathfinder.find_path (row0 :: rows) s e = some π ∧
      AStarPathfinder.find_path (row0 :: rows) s e = some π ∧
      DijkstraPathfinder.find_path (row0 :: rows) s e = some π ∧
      DeadEndFillerPathfinder.find_path (row0 :: rows) s e = some π := by
  obtain ⟨π0, hπ0, hnd0⟩ := hex
  have hbfs := bfsLoop_spec (gridWidth (row0 :: rows)) (gridHeight (row0 :: rows))
    (passableB (row0 :: rows)) s e [(s, [s])] {s}
    (bfsInv_init (okB (gridWidth (row0 :: rows)) (gridHeight (row0 :: rows))
      (passableB (row0 :: rows))) s e)
  cases hb : bfsLoop (gridWidth (row0 :: rows)) (gridHeight (row0 :: rows))
      (passableB (row0 :: rows)) e [(s, [s])] {s} with
  | none => exact absurd hπ0 (hbfs.2 hb π0)
  | some l1 =>
  obtain ⟨hval1, hnd1, -⟩ := hbfs.1 l1 hb
  have ha := bestFirstLoop_spec (gridWidth (row0 :: rows)) (gridHeight (row0 :: rows))
    (passableB (row0 :: rows)) (fun p => manhattan_distance p e) s e
    [⟨0, 0, 0, s, [s]⟩] ∅ (fun p => if p = s then some 0 else none) 0
    (aInv_init (gridWidth (row0 :: rows)) (gridHeight (row0 :: rows))
      (passableB (row0 :: rows)) s e)
  cases hA : bestFirstLoop (gridWidth (row0 :: rows)) (gridHeight (row0 :: rows))
      (passableB (row0 :: rows)) (fun p => manhattan_distance p e) e
      [⟨0, 0, 0, s, [s]⟩] ∅ (fun p => if p = s then some 0 else none) 0 with
  | none => exact absurd hπ0 (ha.2 hA π0)
  | some l2 =>
  obtain ⟨hval2, hnd2⟩ := ha.1 l2 hA
  have hd := bestFirstLoop_spec (gridWidth (row0 :: rows)) (gridHeight (row0 :: rows))
    (passableB (row0 :: rows)) (fun _ => 0) s e
    [⟨0, 0, 0, s, [s]⟩] ∅ (fun p => if p = s then some 0 else none) 0
    (aInv_init (gridWidth (row0 :: rows)) (gridHeight (row0 :: rows))
      (passableB (row0 :: rows)) s e)
  cases hD : bestFirstLoop (gridWidth (row0 :: rows)) (gridHeight (row0 :: rows))
      (passableB (row0 :: rows)) (fun _ => 0) e
      [⟨0, 0, 0, s, [s]⟩] ∅ (fun p => if p = s then some 0 else none) 0 with
  | none => exact absurd hπ0 (hd.2 hD π0)
  | some l3 =>
  obtain ⟨hval3, hnd3⟩ := hd.1 l3 hD
  have hall : ∀ q ∈ π0, okB (gridWidth (row0 :: rows)) (gridHeight (row0 :: rows))
      (passableB (row0 :: rows)) q = true := hπ0.all_ok hs
  have hbounds : ∀ q ∈ π0, inBoundsB (gridWidth (row0 :: rows)) (gridHeight (row0 :: rows))
      q = true := by
    intro q hq
    have h3 := hall q hq
    rw [okB, Bool.and_eq_true] at h3
    exact h3.1
  have hints : ∀ pos ∈ π0, pos ≠ s → pos ≠ e → ∃ a b : Position, a ≠ b ∧ a ∈ π0 ∧ b ∈ π0 ∧
      adjacentB pos a = true ∧ adjacentB pos b = true := by
    intro pos hpos hps hpe
    exact path_interior_two_neighbors hπ0 hnd0 hpos hps hpe
  have hsurv : ∀ q ∈ π0, wPassable (fillLoop (gridWidth (row0 :: rows))
      (gridHeight (row0 :: rows)) s e (workingCopy (row0 :: rows))) q = true := by
    apply fillLoop_preserves (gridWidth (row0 :: rows)) (gridHeight (row0 :: rows)) s e π0
      hbounds hints
    intro q hq
    rw [wPassable_workingCopy]
    have h3 := hall q hq
    rw [okB, Bool.and_eq_true] at h3
    exact h3.2
  have hπw : PathTo (okB (gridWidth (row0 :: rows)) (gridHeight (row0 :: rows))
      (wPassable (fillLoop (gridWidth (row0 :: rows)) (gridHeight (row0 :: rows)) s e
        (workingCopy (row0 :: rows))))) s e π0 := by
    apply hπ0.change_ok
    intro q hq
    rw [okB, Bool.and_eq_true]
    exact ⟨hbounds q hq, hsurv q hq⟩
  have hfil := bfsLoop_spec (gridWidth (row0 :: rows)) (gridHeight (row0 :: rows))
    (wPassable (fillLoop (gridWidth (row0 :: rows)) (gridHeight (row0 :: rows)) s e
      (workingCopy (row0 :: rows)))) s e [(s, [s])] {s}
    (bfsInv_init (okB (gridWidth (row0 :: rows)) (gridHeight (row0 :: rows))
      (wPassable (fillLoop (gridWidth (row0 :: rows)) (gridHeight (row0 :: rows)) s e
        (workingCopy (row0 :: rows))))) s e)
  cases hF : bfsLoop (gridWidth (row0 :: rows)) (gridHeight (row0 :: rows))
      (wPassable (fillLoop (gridWidth (row0 :: rows)) (gridHeight (row0 :: rows)) s e
        (workingCopy (row0 :: rows)))) e [(s, [s])] {s} with
  | none => exact absurd hπw (hfil.2 hF π0)
  | some l4 =>
  obtain ⟨hval4, hnd4, -⟩ := hfil.1 l4 hF
  have hval4g : PathTo (okB (gridWidth (row0 :: rows)) (gridHeight (row0 :: rows))
      (passableB (row0 :: rows))) s e l4 := by
    apply PathTo.mono _ hval4
    intro q hoq
    rw [okB, Bool.and_eq_true] at hoq ⊢
    exact ⟨hoq.1, filled_passable_mono (row0 :: rows) s e q hoq.2⟩
  have e1 : l1 = π0 := huniq l1 π0 hval1 hnd1 hπ0 hnd0
  have e2 : l2 = π0 := huniq l2 π0 hval2 hnd2 hπ0 hnd0
  have e3 : l3 = π0 := huniq l3 π0 hval3 hnd3 hπ0 hnd0
  have e4 : l4 = π0 := huniq l4 π0 hval4g hnd4 hπ0 hnd0
  refine ⟨π0, ?_, ?_, ?_, ?_⟩
  · rw [BFSPathfinder.find_path_eq_bfs row0 rows s e hrow, hb, e1]
  · rw [AStarPathfinder.find_path_eq_astar row0 rows s e hrow, hA, e2]
  · rw [DijkstraPathfinder.find_path_eq_dijkstra row0 rows s e hrow, hD, e3]
  · rw [DeadEndFillerPathfinder.find_path_eq_filler row0 rows s e hrow, hF, e4]

/-- C1 witness: on the 1 x 1 START grid with start = end = (0, 0), every
duplicate-free valid path from (0, 0) to itself is the singleton path, and the
four strategies all return it. -/
theorem strategies_equal_length_witness :
    ∃ π, BFSPathfinder.find_path [[⟨0, 0, CellType.START⟩]] ⟨0, 0⟩ ⟨0, 0⟩ = some π ∧
      AStarPathfinder.find_path [[⟨0, 0, CellType.START⟩]] ⟨0, 0⟩ ⟨0, 0⟩ = some π ∧
      DijkstraPathfinder.find_path [[⟨0, 0, CellType.START⟩]] ⟨0, 0⟩ ⟨0, 0⟩ = some π ∧
      DeadEndFillerPathfinder.find_path [[⟨0, 0, CellType.START⟩]] ⟨0, 0⟩ ⟨0, 0⟩ = some π :=
  strategies_equal_length [⟨0, 0, CellType.START⟩] [] ⟨0, 0⟩ ⟨0, 0⟩
    (List.cons_ne_nil _ _)
    (fun row hrw => by rw [List.mem_singleton] at hrw; subst hrw; rfl)
    (by decide)
    ⟨[⟨0, 0⟩], PathTo.base, List.nodup_singleton _⟩
    (fun l1 l2 h1 hn1 h2 hn2 => by rw [nodup_path_self h1 hn1, nodup_path_self h2 hn2])

end MazeEngine
